import Mathlib

/-!
Verification of the text2num-rs specification against a shallow embedding of
the source code.

The embedding follows `src/digit_string.rs`, `src/word_to_digit.rs`,
`src/lang/mod.rs` and `src/lib.rs`.  Rust `&mut` methods are modelled as
functions returning the (possibly mutated) state together with an
`Option Error` status (`none` = `Ok(())`), so that mutations that happen
before an error is returned are kept, as in the source.  Byte strings of
digits are modelled as `List Char`; `u64` flags as `Nat`; `f64` values and
thresholds as `ℚ` (only order comparisons are used by the claims).
-/

namespace Text2num

/-- Number recognition errors, from `src/error.rs`. -/
inductive Error where
  | Overlap
  | NaN
  | Incomplete
  | Frozen
deriving DecidableEq, Repr

/-- Morphological markers, from `src/lang/mod.rs` (`MorphologicalMarker`). -/
inductive MorphologicalMarker where
  | Ordinal (suffix : String)
  | Fraction (suffix : String)
  | None
deriving DecidableEq, Repr

/-- `MorphologicalMarker::is_ordinal`. -/
def MorphologicalMarker.is_ordinal : MorphologicalMarker → Bool
  | .Ordinal _ => true
  | _ => false

/-- The digit buffer, from `src/digit_string.rs` (`struct DigitString`). -/
structure DigitString where
  buffer : List Char
  leading_zeroes : Nat
  frozen : Bool
  flags : Nat
  marker : MorphologicalMarker
deriving DecidableEq, Repr

/-- `all_zeros` helper of `src/digit_string.rs`. -/
def all_zeros (slice : List Char) : Bool := slice.all (fun c => c == '0')

namespace DigitString

/-- `DigitString::new`. -/
def new : DigitString :=
  { buffer := [], leading_zeroes := 0, frozen := false, flags := 0
    marker := MorphologicalMarker.None }

/-- `DigitString::reset`: clears the buffer, the leading zeroes, the frozen
flag and the marker.  The `flags` field is not touched by the source. -/
def reset (ds : DigitString) : DigitString :=
  { ds with leading_zeroes := 0, frozen := false
            marker := MorphologicalMarker.None, buffer := [] }

/-- `DigitString::freeze`. -/
def freeze (ds : DigitString) : DigitString := { ds with frozen := true }

/-- `DigitString::put`: right-aligned write of `digits` into the buffer. -/
def put (ds : DigitString) (digits : List Char) : Option Error × DigitString :=
  if ds.frozen then (some Error.Frozen, ds)
  else if ds.buffer.isEmpty && digits == ['0'] then
    (none, { ds with leading_zeroes := ds.leading_zeroes + 1 })
  else if all_zeros digits then (some Error.Overlap, ds)
  else
    let positions := digits.length
    let l := ds.buffer.length
    if l = 0 then (none, { ds with buffer := digits })
    else if l < positions then (some Error.Overlap, ds)
    else if all_zeros (ds.buffer.drop (l - positions)) then
      (none, { ds with buffer := ds.buffer.take (l - positions) ++ digits })
    else (some Error.Overlap, ds)

/-- `DigitString::put_digit_at`: place a single non-zero digit at `position`
(counted from the right), extending the buffer on the left with zeros if
needed. -/
def put_digit_at (ds : DigitString) (digit : Char) (position : Nat) :
    Option Error × DigitString :=
  if ds.frozen then (some Error.Frozen, ds)
  else if digit = '0' then (some Error.Overlap, ds)
  else
    let len := ds.buffer.length
    if position ≥ len then
      (none, { ds with
        buffer := digit :: (List.replicate (position - len) '0' ++ ds.buffer) })
    else if ds.buffer.getD (len - 1 - position) 'x' = '0' then
      (none, { ds with buffer := ds.buffer.set (len - 1 - position) digit })
    else (some Error.Overlap, ds)

/-- `DigitString::push`: unconditional append on the right.  The source does
not test the `frozen` flag here. -/
def push (ds : DigitString) (digits : List Char) : Option Error × DigitString :=
  (none, { ds with buffer := ds.buffer ++ digits })

/-- `DigitString::fput`: forced right-aligned write, padding the buffer on the
right with zeros first when it is shorter than `digits`. -/
def fput (ds : DigitString) (digits : List Char) : Option Error × DigitString :=
  if ds.frozen then (some Error.Frozen, ds)
  else
    let positions := digits.length
    if ds.buffer.isEmpty then (none, { ds with buffer := digits })
    else
      let b :=
        if ds.buffer.length < positions then
          ds.buffer ++ List.replicate (positions - ds.buffer.length) '0'
        else ds.buffer
      (none, { ds with buffer := b.take (b.length - positions) ++ digits })

/-- `DigitString::peek`: the rightmost `positions` digits. -/
def peek (ds : DigitString) (positions : Nat) : List Char :=
  let length := ds.buffer.length
  let range := min length positions
  ds.buffer.drop (length - range)

/-- `DigitString::is_empty`. -/
def is_empty (ds : DigitString) : Bool :=
  ds.buffer.isEmpty && ds.leading_zeroes == 0

/-- `DigitString::len`. -/
def len (ds : DigitString) : Nat := ds.buffer.length + ds.leading_zeroes

/-- `DigitString::is_free`: the rightmost `positions` positions are all
absent or `'0'`. -/
def is_free (ds : DigitString) (positions : Nat) : Bool :=
  ds.is_empty || (ds.peek positions).all (fun c => c == '0')

/-- `DigitString::is_range_free` (inclusive range).  The source asserts
`start_position < end_position` (debug builds) and slices
`buffer[left_bound..len - start_position]`; when that slice range is
invalid (possible only when the asserted precondition is violated) the Rust
code panics, which is modelled by `none`. -/
def is_range_free (ds : DigitString) (start_position end_position : Nat) :
    Option Bool :=
  if start_position ≥ ds.buffer.length then some true
  else
    let left_bound :=
      if end_position ≥ ds.buffer.length then 0
      else ds.buffer.length - end_position - 1
    if left_bound ≤ ds.buffer.length - start_position then
      some (all_zeros ((ds.buffer.drop left_bound).take
        (ds.buffer.length - start_position - left_bound)))
    else none

/-- `DigitString::is_position_free`.  The source computes
`self.buffer.len() - 1` first: on an empty buffer this underflows `usize`
(panic in debug builds, out-of-bounds index panic in release builds), which
is modelled by `none`. -/
def is_position_free (ds : DigitString) (position : Nat) : Option Bool :=
  if ds.buffer.isEmpty then none
  else
    let max_pos := ds.buffer.length - 1
    some (decide (position > max_pos) ||
      ds.buffer.getD (max_pos - position) 'x' == '0')

/-- `DigitString::shift`: move the rightmost `positions` digits `positions`
slots to the left.  Note that the source mutates `buffer[l-1]` before the
feasibility test, so on the `Overlap` error path that mutation is kept. -/
def shift (ds : DigitString) (positions : Nat) : Option Error × DigitString :=
  if ds.frozen then (some Error.Frozen, ds)
  else if positions = 0 then (none, ds)
  else
    let b0 := if ds.buffer.isEmpty then ['1'] else ds.buffer
    let l := b0.length
    if l ≤ positions then (none, { ds with buffer := b0 ++ List.replicate positions '0' })
    else
      let pz0 := ((b0.drop (l - positions)).takeWhile (fun c => c == '0')).length
      let b1 := if pz0 = positions then b0.set (l - 1) '1' else b0
      let padding_zeroes := if pz0 = positions then positions - 1 else pz0
      let span := 2 * positions - padding_zeroes
      if span ≤ l ∧ all_zeros ((b1.drop (l - span)).take (span - positions)) then
        let swapped :=
          b1.take (l - span)
          ++ b1.drop (l - positions + padding_zeroes)
          ++ (b1.drop (l - positions)).take padding_zeroes
          ++ (b1.drop (l - span)).take (span - positions)
        (none, { ds with buffer := swapped })
      else (some Error.Overlap, { ds with buffer := b1 })

/-- `DigitString::to_string`: leading zeroes followed by the body. -/
def to_string (ds : DigitString) : String :=
  ⟨List.replicate ds.leading_zeroes '0' ++ ds.buffer⟩

/-- `DigitString::is_ordinal`. -/
def is_ordinal (ds : DigitString) : Bool := ds.marker.is_ordinal

end DigitString

/-- A primitive mutating edit of the digit buffer (the five `&mut` operations
of `src/digit_string.rs` used by the interpreters). -/
inductive Edit where
  | put (digits : List Char)
  | put_digit_at (digit : Char) (position : Nat)
  | push (digits : List Char)
  | fput (digits : List Char)
  | shift (positions : Nat)
deriving DecidableEq, Repr

/-- Dispatch one primitive edit to the corresponding `DigitString` method. -/
def apply_edit (ds : DigitString) : Edit → Option Error × DigitString
  | .put digits => ds.put digits
  | .put_digit_at digit position => ds.put_digit_at digit position
  | .push digits => ds.push digits
  | .fput digits => ds.fput digits
  | .shift positions => ds.shift positions

/-- Thread a sequence of primitive edits through a buffer, keeping the state
after failed edits too (as the owning parser does in the source). -/
def apply_edits (ds : DigitString) (es : List Edit) : DigitString :=
  es.foldl (fun s e => (apply_edit s e).2) ds

/-- Digit-string arguments as the interpreters supply them: a `put` argument
is either all zeros or starts with a non-zero digit, and `push`/`fput`
arguments start with a non-zero digit. -/
def arg_ok : Edit → Bool
  | .put digits => all_zeros digits || !(digits.head? == some '0')
  | .push digits => !(digits.head? == some '0')
  | .fput digits => !(digits.head? == some '0')
  | _ => true

/-- The builtin-language enum of `src/lang/mod.rs` (`enum Language`): the
variants declared there are Dutch, English, French, German, Italian and
Spanish. -/
inductive Language where
  | English
  | French
  | German
  | Italian
  | Spanish
  | Dutch
deriving DecidableEq, Repr

/-- `get_interpreter_for` from `src/lib.rs`. -/
def get_interpreter_for (language_code : String) : Option Language :=
  if language_code = "de" then some Language.German
  else if language_code = "en" then some Language.English
  else if language_code = "es" then some Language.Spanish
  else if language_code = "fr" then some Language.French
  else if language_code = "it" then some Language.Italian
  else if language_code = "nl" then some Language.Dutch
  else none

/-- A language interpreter, as consumed by `src/word_to_digit.rs` and
`src/lang/mod.rs`: the trait methods that the scanner, the strict parser and
`exec_group` call.  `apply` and `apply_decimal` mutate the buffer and return a
status, modelled as a pair.  `f64` values are modelled as `ℚ`. -/
structure Lang where
  apply : String → DigitString → Option Error × DigitString
  apply_decimal : String → DigitString → Option Error × DigitString
  check_decimal_separator : String → Option Char
  is_linking : String → Bool
  format_and_value : DigitString → String × ℚ
  format_decimal_and_value : DigitString → DigitString → Char → String × ℚ

/-- Loop body of the default `LangInterpretor::exec_group` of
`src/lang/mod.rs`: threads the buffer and the `incomplete` flag through the
group, returning the first error other than `Incomplete` immediately. -/
def exec_group_loop (lang : Lang) (b : DigitString) (incomplete : Bool) :
    List String → Except Error DigitString
  | [] => if incomplete then .error Error.Incomplete else .ok b
  | token :: rest =>
    let (st, b') := lang.apply token b
    match st with
    | some Error.Incomplete => exec_group_loop lang b' true rest
    | none => exec_group_loop lang b' false rest
    | some e => .error e

/-- Default `LangInterpretor::exec_group` of `src/lang/mod.rs`. -/
def exec_group (lang : Lang) (group : List String) : Except Error DigitString :=
  exec_group_loop lang DigitString.new false group

/-- Rust `str::split_whitespace`: split on whitespace, dropping empty
fragments. -/
def split_whitespace (s : String) : List String :=
  (s.split Char.isWhitespace).filter (fun w => !w.isEmpty)

/-- `text2digits` from `src/word_to_digit.rs`: lowercase, split on
whitespace, run `exec_group`, format the result. -/
def text2digits (lang : Lang) (text : String) : Except Error String :=
  match exec_group lang (split_whitespace text.toLower) with
  | .ok ds => .ok (lang.format_and_value ds).1
  | .error err => .error err

/-- Modelled from the spec (section 7 and 4.3), for comparison with
`exec_group`: the trace of statuses obtained by applying every word of the
group in order, threading the buffer through. -/
def apply_trace (lang : Lang) (b : DigitString) :
    List String → List (Option Error) × DigitString
  | [] => ([], b)
  | token :: rest =>
    let (st, b') := lang.apply token b
    let (sts, bf) := apply_trace lang b' rest
    (st :: sts, bf)

/-- Modelled from the spec (section 7 and 4.3): the group parse returns the
first non-`Incomplete` error raised while applying the words in order, or
`Incomplete` when the last applied word left the number incomplete, and
otherwise the final buffer. -/
def exec_group_spec (lang : Lang) (group : List String) :
    Except Error DigitString :=
  let (statuses, bf) := apply_trace lang DigitString.new group
  match (statuses.filterMap id).find? (fun e => !(e == Error.Incomplete)) with
  | some e => .error e
  | none =>
    if statuses.getLast? = some (some Error.Incomplete) then
      .error Error.Incomplete
    else .ok bf

/-- A number found in a token stream (`struct Occurence` of
`src/word_to_digit.rs`); the `end` field is written `«end»`. -/
structure Occurence where
  start : Nat
  «end» : Nat
  text : String
  value : ℚ
  is_ordinal : Bool
deriving DecidableEq, Repr

/-- `enum MatchKind` of `src/word_to_digit.rs`. -/
inductive MatchKind where
  | Cardinal
  | Ordinal
  | None
deriving DecidableEq, Repr

/-- `MatchKind::is_none`. -/
def MatchKind.is_none (k : MatchKind) : Bool := k == MatchKind.None

/-- `struct NumTracker` of `src/word_to_digit.rs`; the `VecDeque` of matches
is a list (push_back appends on the right) and the single `on_hold` slot is
an `Option`. -/
structure NumTracker where
  «matches» : List Occurence
  on_hold : Option Occurence
  last_contiguous_match : MatchKind
  match_start : Nat
  match_end : Nat
deriving DecidableEq, Repr

namespace NumTracker

/-- `NumTracker::new`. -/
def new : NumTracker :=
  { «matches» := [], on_hold := none, last_contiguous_match := MatchKind.None
    match_start := 0, match_end := 0 }

/-- `NumTracker::number_advanced`. -/
def number_advanced (t : NumTracker) (pos : Nat) : NumTracker :=
  let t1 := if t.match_start = t.match_end then { t with match_start := pos } else t
  { t1 with match_end := pos + 1 }

/-- `NumTracker::number_end`: keep, promote or hold the candidate occurrence
spanning `match_start..match_end`. -/
def number_end (t : NumTracker) (is_ordinal : Bool) (digits : String)
    (value : ℚ) (forget_if_isolate : Bool) : NumTracker :=
  let occurence : Occurence :=
    { start := t.match_start, «end» := t.match_end, text := digits
      value := value, is_ordinal := is_ordinal }
  let kind := if is_ordinal then MatchKind.Ordinal else MatchKind.Cardinal
  let last := if t.last_contiguous_match ≠ kind then MatchKind.None
              else t.last_contiguous_match
  let t1 :=
    if !last.is_none then
      { t with «matches» := t.«matches» ++ t.on_hold.toList ++ [occurence]
               on_hold := none }
    else if forget_if_isolate then
      { t with on_hold := some occurence }
    else
      { t with «matches» := t.«matches» ++ [occurence], on_hold := none }
  { t1 with last_contiguous_match := kind, match_start := t.match_end }

/-- `NumTracker::sequence_breaker`. -/
def sequence_breaker (t : NumTracker) : NumTracker :=
  { t with last_contiguous_match := MatchKind.None }

/-- `NumTracker::into_vec`. -/
def into_vec (t : NumTracker) : List Occurence := t.«matches»

end NumTracker

/-- `struct WordToDigitParser` of `src/word_to_digit.rs` (without the `lang`
reference, which is passed to each function instead). -/
structure WordToDigitParser where
  int_part : DigitString
  dec_part : DigitString
  dec_separator : Option Char
deriving DecidableEq, Repr

namespace WordToDigitParser

/-- `WordToDigitParser::new`. -/
def new : WordToDigitParser :=
  { int_part := DigitString.new, dec_part := DigitString.new
    dec_separator := none }

/-- `WordToDigitParser::reset`. -/
def reset (p : WordToDigitParser) : WordToDigitParser :=
  { int_part := p.int_part.reset, dec_part := p.dec_part.reset
    dec_separator := none }

/-- `WordToDigitParser::push`: apply the word to the decimal or integer part;
on failure before a separator was seen and with a number started, probe the
word as a decimal separator. -/
def push (lang : Lang) (p : WordToDigitParser) (word : String) :
    Option Error × WordToDigitParser :=
  let (status, p1) :=
    match p.dec_separator with
    | some _ =>
      let (st, d) := lang.apply_decimal word p.dec_part
      (st, { p with dec_part := d })
    | none =>
      let (st, i) := lang.apply word p.int_part
      (st, { p with int_part := i })
  if status.isSome && p1.dec_separator.isNone && !p1.int_part.is_empty then
    let sep := lang.check_decimal_separator word
    if sep.isSome then (some Error.Incomplete, { p1 with dec_separator := sep })
    else (status, p1)
  else (status, p1)

/-- `WordToDigitParser::string_and_value`: format (the separator is always
set when the decimal part is non-empty, so the source's `unwrap` is modelled
with a default) and reset. -/
def string_and_value (lang : Lang) (p : WordToDigitParser) :
    (String × ℚ) × WordToDigitParser :=
  let res :=
    if !p.dec_part.is_empty then
      lang.format_decimal_and_value p.int_part p.dec_part (p.dec_separator.getD '.')
    else lang.format_and_value p.int_part
  (res, p.reset)

/-- `WordToDigitParser::has_number`. -/
def has_number (p : WordToDigitParser) : Bool := !p.int_part.is_empty

/-- `WordToDigitParser::is_ordinal`. -/
def is_ordinal (p : WordToDigitParser) : Bool := p.int_part.is_ordinal

end WordToDigitParser

/-- The `Token` trait of `src/word_to_digit.rs`, as operations on an abstract
token type (`nt_separated token previous` is the trait's
`token.nt_separated(&previous)`). -/
structure TokenOps (T : Type) where
  text : T → String
  text_lowercase : T → String
  nt_separated : T → T → Bool
  not_a_number_part : T → Bool

/-- `is_whitespace` helper of `src/word_to_digit.rs`. -/
def is_whitespace (token : String) : Bool := token.data.all Char.isWhitespace

/-- The state of the `FindNumbers` scanner of `src/word_to_digit.rs` (the
`lang`, `input` and `threshold` fields are passed to each function). -/
structure FindNumbers (T : Type) where
  parser : WordToDigitParser
  tracker : NumTracker
  previous : Option T

namespace FindNumbers

/-- Initial scanner state, from `FindNumbers::new`. -/
def new {T : Type} : FindNumbers T :=
  { parser := WordToDigitParser.new, tracker := NumTracker.new, previous := none }

/-- `FindNumbers::number_end`: read the kind, format the number, compute the
lone-number flag against the threshold and hand over to the tracker. -/
def number_end {T : Type} (lang : Lang) (threshold : ℚ) (s : FindNumbers T) :
    FindNumbers T :=
  let is_ordinal := s.parser.is_ordinal
  let ((digits, value), p') := s.parser.string_and_value lang
  let forget_if_isolate :=
    (digits.length == 1 || is_ordinal) && decide (value < threshold)
  { s with parser := p'
           tracker := s.tracker.number_end is_ordinal digits value forget_if_isolate }

/-- `FindNumbers::outside_number`: a non-number token breaks the contiguous
sequence unless it is a non-alphabetic run other than a bare "." or a
linking word. -/
def outside_number {T : Type} (lang : Lang) (ops : TokenOps T)
    (s : FindNumbers T) (token : T) : FindNumbers T :=
  let text := ops.text token
  if text.data.all (fun c => !c.isAlpha) && !(text.trim == ".")
      || lang.is_linking text then s
  else { s with tracker := s.tracker.sequence_breaker }

/-- `FindNumbers::push`: the per-token step of the scanner state machine. -/
def push {T : Type} (lang : Lang) (ops : TokenOps T) (threshold : ℚ)
    (s : FindNumbers T) (pos : Nat) (token : T) : FindNumbers T :=
  if ops.text token = "-" || is_whitespace (ops.text token) then s
  else if ops.not_a_number_part token then
    let s1 := if s.parser.has_number then s.number_end lang threshold else s
    let s2 := s1.outside_number lang ops token
    { s2 with previous := some token }
  else
    let lo_token := ops.text_lowercase token
    let test :=
      match s.previous with
      | some prev =>
        if s.parser.has_number && ops.nt_separated token prev then ","
        else lo_token
      | none => lo_token
    let (res, p1) := s.parser.push lang test
    let s1 : FindNumbers T := { s with parser := p1 }
    let s2 :=
      match res with
      | none => { s1 with tracker := s1.tracker.number_advanced pos }
      | some Error.Incomplete => s1
      | some _ =>
        if s1.parser.has_number then
          let s3 := s1.number_end lang threshold
          let (res2, p2) := s3.parser.push lang lo_token
          let s4 : FindNumbers T := { s3 with parser := p2 }
          if res2.isNone then { s4 with tracker := s4.tracker.number_advanced pos }
          else s4.outside_number lang ops token
        else s1.outside_number lang ops token
    { s2 with previous := some token }

/-- `FindNumbers::finalize`. -/
def finalize {T : Type} (lang : Lang) (threshold : ℚ) (s : FindNumbers T) :
    FindNumbers T :=
  if s.parser.has_number then s.number_end lang threshold else s

end FindNumbers

/-- The scanning loop of `FindNumbers::track_numbers` over an enumerated
token list, starting at index `i`. -/
def track_loop {T : Type} (lang : Lang) (ops : TokenOps T) (threshold : ℚ) :
    FindNumbers T → Nat → List T → FindNumbers T
  | s, _, [] => s
  | s, i, token :: rest =>
    track_loop lang ops threshold (s.push lang ops threshold i token) (i + 1) rest

/-- `track_numbers` of `src/word_to_digit.rs`: run the scanner over the
enumerated stream, finalize, and return the tracker. -/
def track_numbers {T : Type} (lang : Lang) (ops : TokenOps T) (threshold : ℚ)
    (tokens : List T) : NumTracker :=
  ((track_loop lang ops threshold FindNumbers.new 0 tokens).finalize lang threshold).tracker

/-- `find_numbers` of `src/word_to_digit.rs`. -/
def find_numbers {T : Type} (lang : Lang) (ops : TokenOps T) (threshold : ℚ)
    (tokens : List T) : List Occurence :=
  (track_numbers lang ops threshold tokens).into_vec

/-- A *free* position in the sense of the spec's glossary: either outside
the current body, or holding '0' (position 0 is the rightmost digit). -/
def position_free (ds : DigitString) (p : Nat) : Prop :=
  ds.buffer.length ≤ p ∨ ds.buffer[ds.buffer.length - 1 - p]? = some '0'

/-- Relation between two `NumTracker` states run at a high and a low
threshold: they agree on everything except the emitted and held occurrences,
where the high-threshold run's lists embed into the low-threshold run's. -/
def TrackerRel (tr1 tr2 : NumTracker) : Prop :=
  tr1.last_contiguous_match = tr2.last_contiguous_match ∧
  tr1.match_start = tr2.match_start ∧
  tr1.match_end = tr2.match_end ∧
  tr1.«matches».Sublist tr2.«matches» ∧
  (tr1.«matches» ++ tr1.on_hold.toList).Sublist
    (tr2.«matches» ++ tr2.on_hold.toList)

/-- Relation between two scanner states run at a high and a low threshold:
parser and previous token agree, trackers are related. -/
def StateRel {T : Type} (s1 s2 : FindNumbers T) : Prop :=
  s1.parser = s2.parser ∧ s1.previous = s2.previous ∧
    TrackerRel s1.tracker s2.tracker

/-- The scanner invariant after consuming `i` tokens: the current candidate
span is well-formed and below `i`, a started number has a non-empty span,
and the emitted matches followed by the held candidate are strictly
increasing, non-overlapping spans that end before the current span. -/
def ScanInv {T : Type} (s : FindNumbers T) (i : Nat) : Prop :=
  s.tracker.match_start ≤ s.tracker.match_end ∧
  s.tracker.match_end ≤ i ∧
  (s.parser.has_number = true → s.tracker.match_start < s.tracker.match_end) ∧
  (∀ o ∈ s.tracker.«matches» ++ s.tracker.on_hold.toList, o.start < o.«end») ∧
  List.Chain' (fun a b => a.«end» ≤ b.start)
    (s.tracker.«matches» ++ s.tracker.on_hold.toList) ∧
  (∀ o ∈ s.tracker.«matches» ++ s.tracker.on_hold.toList,
    o.«end» ≤ s.tracker.match_start)

/-- A minimal concrete interpreter used to instantiate the scanner theorems
on concrete inputs: it accepts the ten digit words "0".."9" through `put`,
treats "and" as a mid-number connector and "uh" as a linking word, and
formats a buffer as its rendering (with value 0). -/
def mini_lang : Lang where
  apply := fun w ds =>
    if w.length = 1 ∧ w.data.all Char.isDigit then ds.put w.data
    else if w = "and" then (some Error.Incomplete, ds)
    else (some Error.NaN, ds)
  apply_decimal := fun _ ds => (some Error.NaN, ds)
  check_decimal_separator := fun _ => none
  is_linking := fun w => w == "uh" || w == "and"
  format_and_value := fun ds => (ds.to_string, 0)
  format_decimal_and_value := fun _ _ _ => ("", 0)

/-- Plain-string token operations for witnesses. -/
def str_ops : TokenOps String where
  text := id
  text_lowercase := id
  nt_separated := fun _ _ => false
  not_a_number_part := fun _ => false

/-- A concrete scanner state whose parser holds the digits "12". -/
def c1_scanner_state : FindNumbers String :=
  { parser := { int_part := { DigitString.new with buffer := ['1', '2'] }
                dec_part := DigitString.new
                dec_separator := none }
    tracker := NumTracker.new
    previous := none }

/-! ## Claim theorems -/

theorem all_zeros_eq_true_iff (l : List Char) :
    all_zeros l = true ↔ ∀ i, i < l.length → l[i]? = some '0' := by
  simp only [all_zeros, List.all_eq_true, beq_iff_eq]
  constructor
  · intro h i hi
    rw [List.getElem?_eq_getElem hi]
    exact congrArg some (h _ (List.getElem_mem hi))
  · intro h x hx
    obtain ⟨i, hi⟩ := List.mem_iff_getElem?.mp hx
    have hilen : i < l.length := by
      by_contra hge
      rw [List.getElem?_eq_none (Nat.le_of_not_lt hge)] at hi
      cases hi
    rw [h i hilen] at hi
    exact (Option.some_inj.mp hi).symm

theorem all_zeros_slice_iff (l : List Char) (a c : Nat) :
    all_zeros ((l.drop a).take c) = true ↔
      ∀ i, i < c → i < l.length - a → l[a + i]? = some '0' := by
  rw [all_zeros_eq_true_iff]
  constructor
  · intro h i hic hil
    have hlen : i < ((l.drop a).take c).length := by
      simp [List.length_take, List.length_drop]; omega
    have hh := h i hlen
    rwa [List.getElem?_take, if_pos hic, List.getElem?_drop] at hh
  · intro h i hlen
    have h1 : i < c := by
      simp [List.length_take, List.length_drop] at hlen; omega
    have h2 : i < l.length - a := by
      simp [List.length_take, List.length_drop] at hlen; omega
    rw [List.getElem?_take, if_pos h1, List.getElem?_drop]
    exact h i h1 h2

theorem all_zeros_drop_iff (l : List Char) (a : Nat) :
    all_zeros (l.drop a) = true ↔
      ∀ i, i < l.length - a → l[a + i]? = some '0' := by
  rw [all_zeros_eq_true_iff]
  constructor
  · intro h i hi
    have hlen : i < (l.drop a).length := by rw [List.length_drop]; omega
    have hh := h i hlen
    rwa [List.getElem?_drop] at hh
  · intro h i hlen
    rw [List.length_drop] at hlen
    rw [List.getElem?_drop]
    exact h i hlen

/-- C8, counterexample: `is_position_free` queried on a buffer whose body is
empty does not return `true`: the source subtracts 1 from the length 0
(`usize` underflow / out-of-bounds panic), modelled as `none`. -/
theorem is_position_free_empty_cex :
    DigitString.new.is_position_free 0 = none ∧
    DigitString.new.is_position_free 0 ≠ some true := by
  refine ⟨rfl, ?_⟩
  decide

/-- C8 (amended): `is_free` is total and true exactly when the rightmost `n`
positions are all free; for `p1 < p2` (the precondition its `debug_assert`
states), `is_range_free` returns a value that is true exactly when all
positions of the inclusive range are free; `is_position_free` returns, on a
non-empty body, a value that is true exactly when the position is free, but
fails (panics) on an empty body for every position. -/
theorem free_predicates (ds : DigitString) :
    (∀ n, ds.is_free n = true ↔ ∀ p, p < n → position_free ds p) ∧
    (∀ p1 p2, p1 < p2 → ∃ b, ds.is_range_free p1 p2 = some b ∧
        (b = true ↔ ∀ p, p1 ≤ p → p ≤ p2 → position_free ds p)) ∧
    (∀ p, ds.buffer ≠ [] → ∃ b, ds.is_position_free p = some b ∧
        (b = true ↔ position_free ds p)) ∧
    (∀ p, ds.buffer = [] → ds.is_position_free p = none) := by
  refine ⟨?_, ?_, ?_, ?_⟩
  · -- is_free
    intro n
    by_cases hb : ds.buffer = []
    · constructor
      · intro _ p _
        exact Or.inl (by simp [hb])
      · intro _
        simp [DigitString.is_free, DigitString.peek, hb, all_zeros]
    · have hlen : 0 < ds.buffer.length := List.length_pos.mpr hb
      have hfree : ds.is_free n =
          all_zeros (ds.buffer.drop (ds.buffer.length - min ds.buffer.length n)) := by
        simp [DigitString.is_free, DigitString.peek, DigitString.is_empty,
          List.isEmpty_iff, hb, all_zeros]
      rw [hfree, all_zeros_drop_iff]
      have hm1 : min ds.buffer.length n ≤ ds.buffer.length := Nat.min_le_left _ _
      have hm2 : min ds.buffer.length n ≤ n := Nat.min_le_right _ _
      constructor
      · intro h p hpn
        by_cases hpl : ds.buffer.length ≤ p
        · exact Or.inl hpl
        · have hpm : p < min ds.buffer.length n :=
            Nat.lt_min.mpr ⟨by omega, hpn⟩
          have hh := h (min ds.buffer.length n - 1 - p) (by omega)
          have heq : ds.buffer.length - min ds.buffer.length n +
              (min ds.buffer.length n - 1 - p) = ds.buffer.length - 1 - p := by
            omega
          rw [heq] at hh
          exact Or.inr hh
      · intro h i hi
        have him : i < min ds.buffer.length n := by omega
        rcases h (min ds.buffer.length n - 1 - i) (by omega) with hcase | hcase
        · omega
        · have heq : ds.buffer.length - 1 - (min ds.buffer.length n - 1 - i) =
              ds.buffer.length - min ds.buffer.length n + i := by omega
          rw [heq] at hcase
          exact hcase
  · -- is_range_free
    intro p1 p2 hlt
    by_cases hs : p1 ≥ ds.buffer.length
    · refine ⟨true, by simp [DigitString.is_range_free, hs], ?_⟩
      constructor
      · intro _ p hp1 _
        exact Or.inl (by omega)
      · intro _
        rfl
    · have hs' : p1 < ds.buffer.length := by omega
      rcases Nat.lt_or_ge p2 ds.buffer.length with h2 | h2
      · -- p2 < len, left bound is len - p2 - 1
        have hran : ds.is_range_free p1 p2 = some (all_zeros
            ((ds.buffer.drop (ds.buffer.length - p2 - 1)).take
              (ds.buffer.length - p1 - (ds.buffer.length - p2 - 1)))) := by
          simp only [DigitString.is_range_free]
          rw [if_neg (by omega), if_neg (by omega : ¬ p2 ≥ ds.buffer.length),
            if_pos (by omega)]
        refine ⟨_, hran, ?_⟩
        rw [all_zeros_slice_iff]
        constructor
        · intro h p hp1 hp2
          by_cases hpl : ds.buffer.length ≤ p
          · exact Or.inl hpl
          · have hh := h (ds.buffer.length - 1 - p -
                (ds.buffer.length - p2 - 1)) (by omega) (by omega)
            have heq : ds.buffer.length - p2 - 1 +
                (ds.buffer.length - 1 - p - (ds.buffer.length - p2 - 1)) =
                ds.buffer.length - 1 - p := by omega
            rw [heq] at hh
            exact Or.inr hh
        · intro h i hi1 hi2
          rcases h (ds.buffer.length - 1 - (ds.buffer.length - p2 - 1 + i))
              (by omega) (by omega) with hcase | hcase
          · omega
          · have heq : ds.buffer.length - 1 -
                (ds.buffer.length - 1 - (ds.buffer.length - p2 - 1 + i)) =
                ds.buffer.length - p2 - 1 + i := by omega
            rw [heq] at hcase
            exact hcase
      · -- p2 ≥ len, left bound is 0
        have hran : ds.is_range_free p1 p2 = some (all_zeros
            ((ds.buffer.drop 0).take (ds.buffer.length - p1 - 0))) := by
          simp only [DigitString.is_range_free]
          rw [if_neg (by omega), if_pos (by omega : p2 ≥ ds.buffer.length),
            if_pos (by omega)]
        refine ⟨_, hran, ?_⟩
        rw [all_zeros_slice_iff]
        constructor
        · intro h p hp1 hp2
          by_cases hpl : ds.buffer.length ≤ p
          · exact Or.inl hpl
          · have hh := h (ds.buffer.length - 1 - p) (by omega) (by omega)
            rw [Nat.zero_add] at hh
            exact Or.inr hh
        · intro h i hi1 hi2
          rcases h (ds.buffer.length - 1 - i) (by omega) (by omega)
            with hcase | hcase
          · omega
          · have heq : ds.buffer.length - 1 - (ds.buffer.length - 1 - i) = i := by
              omega
            rw [heq] at hcase
            rw [Nat.zero_add]
            exact hcase
  · -- is_position_free on a non-empty body
    intro p hne
    have hlen : 0 < ds.buffer.length := List.length_pos.mpr hne
    have hval : ds.is_position_free p = some
        (decide (p > ds.buffer.length - 1) ||
          (ds.buffer.getD (ds.buffer.length - 1 - p) 'x' == '0')) := by
      simp only [DigitString.is_position_free]
      rw [if_neg (by simp [List.isEmpty_iff, hne])]
    refine ⟨_, hval, ?_⟩
    simp only [Bool.or_eq_true, decide_eq_true_eq, beq_iff_eq, position_free]
    constructor
    · rintro (hgt | hgd)
      · exact Or.inl (by omega)
      · right
        have hidx : ds.buffer.length - 1 - p < ds.buffer.length := by omega
        rw [List.getD_eq_getElem?_getD, List.getElem?_eq_getElem hidx] at hgd
        rw [List.getElem?_eq_getElem hidx]
        simp only [Option.getD_some] at hgd
        exact congrArg some hgd
    · rintro (hge | hsome)
      · exact Or.inl (by omega)
      · right
        rw [List.getD_eq_getElem?_getD, hsome]
        rfl
  · -- is_position_free on an empty body
    intro p hb
    simp [DigitString.is_position_free, hb]

/-- Witness for `free_predicates` at a concrete buffer "203070": position 1
holds '7' (not free) and is reported as such; the range 6..12 is free;
position 0 is free. -/
theorem free_predicates_witness :
    ({ DigitString.new with buffer := "203070".data } : DigitString).is_free 1 = true ∧
    (∃ b, ({ DigitString.new with buffer := "203070".data } : DigitString).is_range_free 6 12 =
        some b ∧ (b = true ↔ ∀ p, 6 ≤ p → p ≤ 12 →
          position_free { DigitString.new with buffer := "203070".data } p)) ∧
    (∃ b, ({ DigitString.new with buffer := "203070".data } : DigitString).is_position_free 1 =
        some b ∧ (b = true ↔ position_free { DigitString.new with buffer := "203070".data } 1)) ∧
    ({ DigitString.new with buffer := [] } : DigitString).is_position_free 5 = none := by
  refine ⟨?_, ?_, ?_, ?_⟩
  · decide
  · exact (free_predicates { DigitString.new with buffer := "203070".data }).2.1 6 12
      (by decide)
  · exact (free_predicates { DigitString.new with buffer := "203070".data }).2.2.1 1
      (by decide)
  · exact (free_predicates { DigitString.new with buffer := [] }).2.2.2 5 rfl

theorem drop_takeWhile_length (p : Char → Bool) (l : List Char) :
    l.drop (l.takeWhile p).length = l.dropWhile p := by
  induction l with
  | nil => rfl
  | cons a l ih =>
    by_cases h : p a <;>
      simp [List.takeWhile_cons, List.dropWhile_cons, h, ih]

theorem head?_dropWhile_false (p : Char → Bool) (l : List Char) (c : Char)
    (h : (l.dropWhile p).head? = some c) : p c = false := by
  have hne : l.dropWhile p ≠ [] := by intro hnil; rw [hnil] at h; cases h
  have hh := List.head_dropWhile_not p l hne
  rw [List.head?_eq_head hne] at h
  rw [← Option.some_inj.mp h]
  exact hh

theorem length_takeWhile_le_len (p : Char → Bool) (l : List Char) :
    (l.takeWhile p).length ≤ l.length := by
  induction l with
  | nil => simp
  | cons a l ih =>
    by_cases h : p a
    · simp [List.takeWhile_cons, h]
      omega
    · simp [List.takeWhile_cons, h]

theorem put_head (ds : DigitString) (digits : List Char)
    (hok : (all_zeros digits || !(digits.head? == some '0')) = true)
    (hinv : ds.buffer.head? ≠ some '0') :
    (ds.put digits).2.buffer.head? ≠ some '0' := by
  have hdig : all_zeros digits = false → digits.head? ≠ some '0' := by
    intro hz heq
    rw [hz, heq] at hok
    simp at hok
  simp only [DigitString.put]
  split_ifs with h1 h2 h3 h4 h5 h6
  · exact hinv
  · exact hinv
  · exact hinv
  · exact hdig (by simpa using h3)
  · exact hinv
  · show (ds.buffer.take (ds.buffer.length - digits.length) ++ digits).head? ≠ some '0'
    rw [List.head?_append, List.head?_take]
    by_cases hlp : ds.buffer.length - digits.length = 0
    · rw [if_pos hlp]
      simpa using hdig (by simpa using h3)
    · rw [if_neg hlp]
      cases hb : ds.buffer with
      | nil => rw [hb] at hlp; simp at hlp
      | cons c t =>
        rw [hb] at hinv
        simpa using hinv
  · exact hinv

theorem fput_head (ds : DigitString) (digits : List Char)
    (hok : (!(digits.head? == some '0')) = true)
    (hinv : ds.buffer.head? ≠ some '0') :
    (ds.fput digits).2.buffer.head? ≠ some '0' := by
  have hdig : digits.head? ≠ some '0' := by
    intro heq; rw [heq] at hok; simp at hok
  have hne' : ds.buffer.isEmpty = false → ds.buffer ≠ [] := by
    intro h2 hnil
    rw [hnil] at h2
    simp at h2
  simp only [DigitString.fput]
  split_ifs with h1 h2 h3
  · exact hinv
  · exact hdig
  · -- the buffer is padded on the right to the length of `digits`
    dsimp only
    rw [List.head?_append, List.head?_take]
    have h0 : (ds.buffer ++ List.replicate (digits.length - ds.buffer.length) '0').length -
        digits.length = 0 := by
      rw [List.length_append, List.length_replicate]
      omega
    rw [if_pos h0]
    simpa using hdig
  · dsimp only
    rw [List.head?_append, List.head?_take]
    by_cases h0 : ds.buffer.length - digits.length = 0
    · rw [if_pos h0]
      simpa using hdig
    · rw [if_neg h0]
      cases hb : ds.buffer with
      | nil => exact absurd hb (hne' (by simpa [List.isEmpty_iff] using h2))
      | cons c t =>
        rw [hb] at hinv
        simpa using hinv

theorem put_digit_at_head (ds : DigitString) (digit : Char) (position : Nat)
    (hinv : ds.buffer.head? ≠ some '0') :
    (ds.put_digit_at digit position).2.buffer.head? ≠ some '0' := by
  simp only [DigitString.put_digit_at]
  split_ifs with h1 h2 h3 h4
  · exact hinv
  · exact hinv
  · show (digit :: (List.replicate (position - ds.buffer.length) '0' ++ ds.buffer)).head? ≠
      some '0'
    simp only [List.head?_cons]
    intro heq
    exact h2 (Option.some_inj.mp heq)
  · show (ds.buffer.set (ds.buffer.length - 1 - position) digit).head? ≠ some '0'
    rw [List.head?_eq_getElem?, List.getElem?_set]
    split_ifs with h5 h6
    · intro heq
      exact h2 (Option.some_inj.mp heq)
    · simp
    · rw [← List.head?_eq_getElem?]
      exact hinv
  · exact hinv

theorem push_head (ds : DigitString) (digits : List Char)
    (hok : (!(digits.head? == some '0')) = true)
    (hinv : ds.buffer.head? ≠ some '0') :
    (ds.push digits).2.buffer.head? ≠ some '0' := by
  have hdig : digits.head? ≠ some '0' := by
    intro heq; rw [heq] at hok; simp at hok
  show (ds.buffer ++ digits).head? ≠ some '0'
  rw [List.head?_append]
  cases hb : ds.buffer with
  | nil => simpa using hdig
  | cons c t =>
    rw [hb] at hinv
    simpa using hinv

theorem shift_head (ds : DigitString) (k : Nat)
    (hinv : ds.buffer.head? ≠ some '0') :
    (ds.shift k).2.buffer.head? ≠ some '0' := by
  by_cases hfr : ds.frozen = true
  · simpa [DigitString.shift, hfr] using hinv
  by_cases hk0 : k = 0
  · simpa [DigitString.shift, hfr, hk0] using hinv
  -- abbreviations matching the source's locals
  have hb0head : (if ds.buffer.isEmpty then ['1'] else ds.buffer).head? ≠ some '0' := by
    by_cases he : ds.buffer.isEmpty
    · simp [he]
    · simpa [he] using hinv
  have hb0ne : (if ds.buffer.isEmpty then ['1'] else ds.buffer) ≠ [] := by
    by_cases he : ds.buffer.isEmpty
    · simp [he]
    · rw [if_neg he]
      simpa [List.isEmpty_iff] using he
  simp only [DigitString.shift, if_neg hfr, if_neg hk0]
  set B := if ds.buffer.isEmpty then ['1'] else ds.buffer with hBdef
  by_cases hle : B.length ≤ k
  · rw [if_pos hle]
    show (B ++ List.replicate k '0').head? ≠ some '0'
    rw [List.head?_append]
    cases hb : B with
    | nil => exact absurd hb hb0ne
    | cons c t =>
      rw [hb] at hb0head
      simpa using hb0head
  rw [if_neg hle]
  have hkB : k < B.length := by omega
  have hB2 : 2 ≤ B.length := by omega
  set pz0 := ((B.drop (B.length - k)).takeWhile (fun c => c == '0')).length with hpz0def
  have hpz0le : pz0 ≤ k := by
    have h1 : (B.drop (B.length - k)).length = k := by
      rw [List.length_drop]; omega
    have h2 := length_takeWhile_le_len (fun c => (c == '0')) (B.drop (B.length - k))
    rw [h1] at h2
    exact h2
  set B1 := if pz0 = k then B.set (B.length - 1) '1' else B with hB1def
  have hB1len : B1.length = B.length := by
    rw [hB1def]
    split_ifs
    · exact List.length_set B (B.length - 1) '1'
    · rfl
  have hB1head : B1.head? ≠ some '0' := by
    rw [hB1def]
    split_ifs with hpz
    · rw [List.head?_eq_getElem?, List.getElem?_set, if_neg (by omega),
        ← List.head?_eq_getElem?]
      exact hb0head
    · exact hb0head
  set padding := if pz0 = k then k - 1 else pz0 with hpaddef
  have hpadlt : padding < k := by
    rw [hpaddef]; split_ifs with hpz <;> omega
  set span := 2 * k - padding with hspandef
  have hspk : k < span := by omega
  have htl : (B.drop (B.length - k)).length = k := by
    rw [List.length_drop]; omega
  split_ifs with hcond
  · -- successful swap
    obtain ⟨hspl, _⟩ := hcond
    dsimp only
    rw [List.head?_append, List.head?_append, List.head?_append, List.head?_take]
    by_cases hsp : B.length - span = 0
    · rw [if_pos hsp, Option.none_or, List.head?_drop]
      by_cases hpz : pz0 = k
      · -- the padding adjustment put '1' at the last index
        have hidx : B.length - k + padding = B.length - 1 := by
          rw [hpaddef, if_pos hpz]; omega
        rw [hidx, hB1def, if_pos hpz, List.getElem?_set, if_pos rfl,
          if_pos (by omega)]
        simp
      · -- the first moved digit is where takeWhile stopped: not '0'
        have hidx : B1[B.length - k + padding]? =
            ((B.drop (B.length - k)).dropWhile (fun c => c == '0')).head? := by
          rw [hpaddef, if_neg hpz, hB1def, if_neg hpz]
          rw [← List.getElem?_drop, ← List.head?_drop, hpz0def,
            drop_takeWhile_length]
        rw [hidx]
        cases hx : ((B.drop (B.length - k)).dropWhile (fun c => c == '0')).head? with
        | none =>
          -- impossible: the dropWhile result is non-empty since pz0 < k
          exfalso
          have hlendw : ((B.drop (B.length - k)).dropWhile (fun c => c == '0')).length =
              k - pz0 := by
            rw [← drop_takeWhile_length, ← hpz0def, List.length_drop, htl]
          rw [List.head?_eq_none_iff.mp hx] at hlendw
          simp at hlendw
          omega
        | some c =>
          have hc := head?_dropWhile_false _ _ _ hx
          simp only [Option.or_some]
          intro heq
          rw [Option.some_inj.mp heq] at hc
          simp at hc
    · rw [if_neg hsp]
      obtain ⟨c, hc⟩ : ∃ c, B1.head? = some c := by
        cases hB1eq : B1 with
        | nil =>
          exfalso
          have hlen0 := congrArg List.length hB1eq
          rw [hB1len, List.length_nil] at hlen0
          omega
        | cons c t => exact ⟨c, rfl⟩
      rw [hc]
      simp only [Option.or_some]
      intro heq
      rw [heq] at hc
      exact hB1head hc
  · -- overlap: the buffer keeps the (possibly) adjusted last digit
    exact hB1head

theorem apply_edit_head (ds : DigitString) (e : Edit) (hok : arg_ok e = true)
    (hinv : ds.buffer.head? ≠ some '0') :
    (apply_edit ds e).2.buffer.head? ≠ some '0' := by
  cases e with
  | put digits => exact put_head ds digits hok hinv
  | put_digit_at digit position => exact put_digit_at_head ds digit position hinv
  | push digits => exact push_head ds digits hok hinv
  | fput digits => exact fput_head ds digits hok hinv
  | shift positions => exact shift_head ds positions hinv

/-- C4, counterexample: `put("05")` on a fresh buffer succeeds and leaves a
body whose first digit is '0'; likewise `push("0")` — the edit the English
and German `apply_decimal` issue for a zero word, so a decimal part such as
"point zero five" builds the body "05" in real runs. -/
theorem body_leading_zero_cex :
    (DigitString.new.put ['0', '5']).1 = none ∧
    (DigitString.new.put ['0', '5']).2.buffer.head? = some '0' ∧
    (DigitString.new.push ['0']).1 = none ∧
    ((DigitString.new.push ['0']).2.push ['5']).2.buffer.head? = some '0' := by
  refine ⟨rfl, rfl, rfl, rfl⟩

/-- C4 (amended): for every sequence of primitive edits applied to a
`DigitString` created empty, the body never begins with '0' — provided each
digit-string argument of `put` is all zeros or starts with a non-zero digit,
and each argument of `push` and `fput` starts with a non-zero digit. This
discipline holds for the integer-part edits the interpreters issue, but not
universally: `push` is used for decimal parts and the English and German
`apply_decimal` call `push("0")` for zero words, so decimal bodies with a
leading '0' (e.g. "05" from "point zero five") are reachable program
behaviour, refuting the original unrestricted claim — see the
counterexample. -/
theorem body_invariant (es : List Edit) (h : ∀ e ∈ es, arg_ok e = true) :
    (apply_edits DigitString.new es).buffer.head? ≠ some '0' := by
  suffices hgen : ∀ (ds : DigitString), ds.buffer.head? ≠ some '0' →
      (∀ e ∈ es, arg_ok e = true) →
      (apply_edits ds es).buffer.head? ≠ some '0' by
    exact hgen DigitString.new (by simp [DigitString.new]) h
  clear h
  induction es with
  | nil => intro ds hds _; exact hds
  | cons e rest ih =>
    intro ds hds hall
    have h1 := hall e (List.mem_cons_self e rest)
    have h2 : ∀ e' ∈ rest, arg_ok e' = true :=
      fun e' he' => hall e' (List.mem_cons_of_mem e he')
    exact ih _ (apply_edit_head ds e h1 hds) h2

/-- Witness for `body_invariant` on the edit sequence of the source's
`complete_example` test (the number 2792). -/
theorem body_invariant_witness :
    (∀ e ∈ [Edit.put ['2'], Edit.shift 3, Edit.put ['7'], Edit.shift 2,
        Edit.put ['9', '0'], Edit.put ['2']], arg_ok e = true) ∧
    (apply_edits DigitString.new [Edit.put ['2'], Edit.shift 3, Edit.put ['7'],
        Edit.shift 2, Edit.put ['9', '0'], Edit.put ['2']]).buffer.head? ≠ some '0' :=
  ⟨by decide, body_invariant _ (by decide)⟩

/-- C7, counterexample: `get_interpreter_for` does not accept the ISO code
"pt"; the `Language` enum of this version has no Portuguese variant. -/
theorem get_interpreter_for_pt_cex : get_interpreter_for "pt" = none := by
  decide

/-- C7 (amended): `get_interpreter_for` returns an interpreter for exactly
the six ISO language codes "de", "en", "es", "fr", "it" and "nl", and `none`
for every other input string ("pt" included). -/
theorem get_interpreter_for_codes (language_code : String) :
    (get_interpreter_for language_code).isSome = true ↔
      language_code ∈ ["de", "en", "es", "fr", "it", "nl"] := by
  unfold get_interpreter_for
  split_ifs with h1 h2 h3 h4 h5 h6 <;> simp_all

/-- C9: evaluation of `DigitString::reset` on a buffer whose `flags` field
was set by an interpreter: `reset` restores every field of a brand-new
buffer except `flags`, which it leaves unchanged, although its documentation
says "Clear DigitString as if it was brand new". -/
theorem reset_keeps_flags :
    (DigitString.reset { DigitString.new with flags := 1 }).flags = 1 ∧
    DigitString.new.flags = 0 ∧
    DigitString.reset { DigitString.new with flags := 1 } ≠ DigitString.new ∧
    (DigitString.reset { DigitString.new with flags := 1 }).buffer = [] ∧
    (DigitString.reset { DigitString.new with flags := 1 }).leading_zeroes = 0 ∧
    (DigitString.reset { DigitString.new with flags := 1 }).frozen = false ∧
    (DigitString.reset { DigitString.new with flags := 1 }).marker =
      MorphologicalMarker.None := by
  refine ⟨rfl, rfl, ?_, rfl, rfl, rfl, rfl⟩
  decide

/-- C3, counterexample: `DigitString::push` on a frozen buffer does not
return the `Frozen` error; it succeeds and mutates the buffer. -/
theorem push_on_frozen_cex :
    (DigitString.new.freeze.push ['5']).1 = none ∧
    (DigitString.new.freeze.push ['5']).1 ≠ some Error.Frozen ∧
    (DigitString.new.freeze.push ['5']).2.buffer = ['5'] := by
  refine ⟨rfl, ?_, rfl⟩
  decide

/-- C3 (amended): once a `DigitString` is frozen, the mutating primitives
`put`, `put_digit_at`, `fput` and `shift` return the `Frozen` error and
leave the state unchanged; `push`, however, never checks the frozen flag and
always succeeds, appending its argument to the buffer. -/
theorem frozen_edits (ds : DigitString) (h : ds.frozen = true) :
    (∀ digits, ds.put digits = (some Error.Frozen, ds)) ∧
    (∀ digit position, ds.put_digit_at digit position = (some Error.Frozen, ds)) ∧
    (∀ digits, ds.fput digits = (some Error.Frozen, ds)) ∧
    (∀ positions, ds.shift positions = (some Error.Frozen, ds)) ∧
    (∀ digits, ds.push digits = (none, { ds with buffer := ds.buffer ++ digits })) := by
  refine ⟨fun digits => ?_, fun digit position => ?_, fun digits => ?_,
    fun positions => ?_, fun digits => ?_⟩ <;>
    simp [DigitString.put, DigitString.put_digit_at, DigitString.fput,
      DigitString.shift, DigitString.push, h]

/-- Witness for `frozen_edits` at a concrete frozen buffer. -/
theorem frozen_edits_witness :
    DigitString.new.freeze.frozen = true ∧
    DigitString.new.freeze.put ['5'] = (some Error.Frozen, DigitString.new.freeze) :=
  ⟨by decide, (frozen_edits DigitString.new.freeze (by decide)).1 ['5']⟩

/-- C2, counterexample: after `put("1000")`, `shift(2)` succeeds but renders
"1100", not "100000" (the source's own `test_shift_full_zeroes`): `shift`
does not in general multiply by a power of ten when fewer positions are
shifted than the body holds. -/
theorem put_shift_cex :
    (DigitString.new.put ['1', '0', '0', '0']).1 = none ∧
    ((DigitString.new.put ['1', '0', '0', '0']).2.shift 2).1 = none ∧
    ((DigitString.new.put ['1', '0', '0', '0']).2.shift 2).2.to_string = "1100" ∧
    ("1100" : String) ≠ "100000" := by
  refine ⟨rfl, rfl, rfl, ?_⟩
  decide

/-- C2 (amended): starting from a fresh buffer, `put(d)` for a digit string
`d` that is not all zeros, followed by `shift(k)` where `k = 0` or
`k ≥ |d|`, succeeds and `to_string` renders `d` followed by `k` zeros. -/
theorem put_shift_appends (d : List Char) (k : Nat) (hnz : all_zeros d = false)
    (hk : k = 0 ∨ d.length ≤ k) :
    ∃ ds1 ds2, DigitString.new.put d = (none, ds1) ∧ ds1.shift k = (none, ds2) ∧
      ds2.to_string = String.mk (d ++ List.replicate k '0') := by
  have hdne : d ≠ [] := by
    intro h; subst h; simp [all_zeros] at hnz
  have hd0 : (d == ['0']) = false := by
    by_cases h : d = ['0']
    · subst h; simp [all_zeros] at hnz
    · simp [h]
  have hput : DigitString.new.put d = (none, { DigitString.new with buffer := d }) := by
    simp [DigitString.put, DigitString.new, hd0, hnz]
  refine ⟨{ DigitString.new with buffer := d }, ?_⟩
  rcases hk with rfl | hlen
  · exact ⟨{ DigitString.new with buffer := d }, hput,
      by simp [DigitString.shift, DigitString.new],
      by simp [DigitString.to_string, DigitString.new]⟩
  · have hk0 : k ≠ 0 := by
      intro h; subst h
      exact hdne (List.length_eq_zero.mp (Nat.le_zero.mp hlen))
    refine ⟨{ DigitString.new with buffer := d ++ List.replicate k '0' }, hput, ?_, ?_⟩
    · simp [DigitString.shift, DigitString.new, hk0, hdne, hlen,
        List.isEmpty_iff]
    · simp [DigitString.to_string, DigitString.new]

/-- Witness for `put_shift_appends` at `d = "5"`, `k = 3`. -/
theorem put_shift_appends_witness :
    all_zeros ['5'] = false ∧ ((3 : Nat) = 0 ∨ [('5' : Char)].length ≤ 3) ∧
    (∃ ds1 ds2, DigitString.new.put ['5'] = (none, ds1) ∧
      ds1.shift 3 = (none, ds2) ∧
      ds2.to_string = String.mk (['5'] ++ List.replicate 3 '0')) :=
  ⟨by decide, Or.inr (by decide),
    put_shift_appends ['5'] 3 (by decide) (Or.inr (by decide))⟩

theorem getLast?_cons_getD (x : Option Error) (l : List (Option Error))
    (d : Option Error) : ((x :: l).getLast?).getD d = (l.getLast?).getD x := by
  induction l generalizing x d with
  | nil => rfl
  | cons y t ih =>
    rw [List.getLast?_cons_cons, ih y d, ih y x]

theorem exec_group_loop_cons (lang : Lang) (b : DigitString) (incomplete : Bool)
    (tok : String) (rest : List String) :
    exec_group_loop lang b incomplete (tok :: rest) =
      (match (lang.apply tok b).1 with
       | some Error.Incomplete => exec_group_loop lang (lang.apply tok b).2 true rest
       | none => exec_group_loop lang (lang.apply tok b).2 false rest
       | some e => Except.error e) := rfl

theorem apply_trace_cons (lang : Lang) (b : DigitString) (tok : String)
    (rest : List String) :
    apply_trace lang b (tok :: rest) =
      ((lang.apply tok b).1 :: (apply_trace lang (lang.apply tok b).2 rest).1,
        (apply_trace lang (lang.apply tok b).2 rest).2) := rfl

theorem exec_group_loop_spec (lang : Lang) (group : List String) :
    ∀ (b : DigitString) (incomplete : Bool),
    exec_group_loop lang b incomplete group =
      (match ((apply_trace lang b group).1.filterMap id).find?
          (fun e => !(e == Error.Incomplete)) with
       | some e => Except.error e
       | none =>
         if ((apply_trace lang b group).1.getLast?).getD
             (if incomplete then some Error.Incomplete else none) =
             some Error.Incomplete then Except.error Error.Incomplete
         else Except.ok (apply_trace lang b group).2) := by
  induction group with
  | nil =>
    intro b incomplete
    cases incomplete <;> simp [exec_group_loop, apply_trace]
  | cons tok rest ih =>
    intro b incomplete
    rcases hap : lang.apply tok b with ⟨st, b'⟩
    rcases htr : apply_trace lang b' rest with ⟨sts, bf⟩
    have htr2 : apply_trace lang b (tok :: rest) = (st :: sts, bf) := by
      rw [apply_trace_cons, hap, htr]
    rw [exec_group_loop_cons, hap, htr2]
    simp only
    cases st with
    | none =>
      have hih := ih b' false
      rw [htr] at hih
      rw [hih]
      simp [getLast?_cons_getD]
    | some e =>
      cases e with
      | Incomplete =>
        have hih := ih b' true
        rw [htr] at hih
        rw [hih]
        simp [getLast?_cons_getD]
      | Overlap =>
        simp [List.filterMap_cons, List.find?_cons]
      | NaN =>
        simp [List.filterMap_cons, List.find?_cons]
      | Frozen =>
        simp [List.filterMap_cons, List.find?_cons]

theorem exec_group_eq_spec (lang : Lang) (group : List String) :
    exec_group lang group = exec_group_spec lang group := by
  unfold exec_group exec_group_spec
  rw [exec_group_loop_spec]
  rcases htr : apply_trace lang DigitString.new group with ⟨sts, bf⟩
  simp only
  have hcond : (((sts.getLast?).getD (if false then some Error.Incomplete
      else none)) = some Error.Incomplete) ↔
      (sts.getLast? = some (some Error.Incomplete)) := by
    cases h : sts.getLast? <;> simp
  cases hf : (sts.filterMap id).find? (fun e => !(e == Error.Incomplete)) with
  | some e => simp
  | none =>
    simp only
    by_cases hc : sts.getLast? = some (some Error.Incomplete)
    · rw [if_pos (hcond.mpr hc), if_pos hc]
    · rw [if_neg (fun h => hc (hcond.mp h)), if_neg hc]

theorem number_end_spec (t : NumTracker) (o : Bool) (d : String) (v : ℚ)
    (fii : Bool) :
    t.number_end o d v fii =
      (if t.last_contiguous_match = (if o then MatchKind.Ordinal else MatchKind.Cardinal) then
        { t with
          «matches» := t.«matches» ++ t.on_hold.toList ++
            [⟨t.match_start, t.match_end, d, v, o⟩]
          on_hold := none
          last_contiguous_match := if o then MatchKind.Ordinal else MatchKind.Cardinal
          match_start := t.match_end }
      else if fii then
        { t with
          on_hold := some ⟨t.match_start, t.match_end, d, v, o⟩
          last_contiguous_match := if o then MatchKind.Ordinal else MatchKind.Cardinal
          match_start := t.match_end }
      else
        { t with
          «matches» := t.«matches» ++ [⟨t.match_start, t.match_end, d, v, o⟩]
          on_hold := none
          last_contiguous_match := if o then MatchKind.Ordinal else MatchKind.Cardinal
          match_start := t.match_end }) := by
  unfold NumTracker.number_end
  cases o
  · by_cases h : t.last_contiguous_match = MatchKind.Cardinal
    · simp [h, MatchKind.is_none]
    · cases fii <;> simp [h, MatchKind.is_none]
  · by_cases h : t.last_contiguous_match = MatchKind.Ordinal
    · simp [h, MatchKind.is_none]
    · cases fii <;> simp [h, MatchKind.is_none]

theorem find_number_end_eq {T : Type} (lang : Lang) (threshold : ℚ)
    (s : FindNumbers T) :
    s.number_end lang threshold =
      { parser := (s.parser.string_and_value lang).2
        tracker := s.tracker.number_end s.parser.is_ordinal
          (s.parser.string_and_value lang).1.1 (s.parser.string_and_value lang).1.2
          (((s.parser.string_and_value lang).1.1.length == 1 || s.parser.is_ordinal)
            && decide ((s.parser.string_and_value lang).1.2 < threshold))
        previous := s.previous } := rfl

/-- C1: when the scanner ends a number, the candidate occurrence (spanning
`match_start..match_end`, with the formatted digits, value and kind read
from the parser) is appended to the emitted matches exactly when its text
has length > 1 and it is not an ordinal, or its value reaches the threshold,
or its kind equals the tracker's last contiguous kind; otherwise the matches
are unchanged and the candidate is parked in the single `on_hold` slot
(an `Option`, so at most one candidate is ever held). -/
theorem scanner_keep_rule {T : Type} (lang : Lang) (threshold : ℚ)
    (s : FindNumbers T) (digits : String) (value : ℚ)
    (hdv : (s.parser.string_and_value lang).1 = (digits, value))
    (hne : 0 < digits.length) :
    (((s.number_end lang threshold).tracker.«matches» ≠ s.tracker.«matches») ↔
      ((1 < digits.length ∧ s.parser.is_ordinal = false) ∨ threshold ≤ value ∨
        s.tracker.last_contiguous_match =
          (if s.parser.is_ordinal then MatchKind.Ordinal else MatchKind.Cardinal))) ∧
    (((1 < digits.length ∧ s.parser.is_ordinal = false) ∨ threshold ≤ value ∨
        s.tracker.last_contiguous_match =
          (if s.parser.is_ordinal then MatchKind.Ordinal else MatchKind.Cardinal)) →
      ((s.number_end lang threshold).tracker.«matches» =
          s.tracker.«matches» ++ s.tracker.on_hold.toList ++
            [⟨s.tracker.match_start, s.tracker.match_end, digits, value,
              s.parser.is_ordinal⟩] ∨
        (s.number_end lang threshold).tracker.«matches» =
          s.tracker.«matches» ++
            [⟨s.tracker.match_start, s.tracker.match_end, digits, value,
              s.parser.is_ordinal⟩]) ∧
        (s.number_end lang threshold).tracker.on_hold = none) ∧
    (¬((1 < digits.length ∧ s.parser.is_ordinal = false) ∨ threshold ≤ value ∨
        s.tracker.last_contiguous_match =
          (if s.parser.is_ordinal then MatchKind.Ordinal else MatchKind.Cardinal)) →
      (s.number_end lang threshold).tracker.«matches» = s.tracker.«matches» ∧
        (s.number_end lang threshold).tracker.on_hold =
          some ⟨s.tracker.match_start, s.tracker.match_end, digits, value,
            s.parser.is_ordinal⟩) := by
  rw [find_number_end_eq, hdv]
  simp only
  rw [number_end_spec]
  by_cases hcont : s.tracker.last_contiguous_match =
      (if s.parser.is_ordinal then MatchKind.Ordinal else MatchKind.Cardinal)
  · rw [if_pos hcont]
    refine ⟨?_, ?_, ?_⟩
    · simp only
      constructor
      · intro _
        exact Or.inr (Or.inr hcont)
      · intro _ heq
        have hlen := congrArg List.length heq
        simp at hlen
    · intro _
      exact ⟨Or.inl rfl, rfl⟩
    · intro hnk
      exact absurd (Or.inr (Or.inr hcont)) hnk
  · rw [if_neg hcont]
    by_cases hfii : ((digits.length == 1 || s.parser.is_ordinal)
        && decide (value < threshold)) = true
    · rw [if_pos hfii]
      have hkf : ¬((1 < digits.length ∧ s.parser.is_ordinal = false) ∨
          threshold ≤ value ∨ s.tracker.last_contiguous_match =
            (if s.parser.is_ordinal then MatchKind.Ordinal else MatchKind.Cardinal)) := by
        rw [Bool.and_eq_true, Bool.or_eq_true, beq_iff_eq, decide_eq_true_eq] at hfii
        rintro (⟨h1, h2⟩ | hv | hc)
        · rcases hfii.1 with hl | ho
          · omega
          · rw [ho] at h2; cases h2
        · exact absurd hfii.2 (not_lt.mpr hv)
        · exact hcont hc
      refine ⟨?_, ?_, ?_⟩
      · simp only
        constructor
        · intro hne'
          exact absurd rfl hne'
        · intro hk
          exact absurd hk hkf
      · intro hk
        exact absurd hk hkf
      · intro _
        exact ⟨rfl, rfl⟩
    · rw [if_neg hfii]
      have hk : (1 < digits.length ∧ s.parser.is_ordinal = false) ∨
          threshold ≤ value ∨ s.tracker.last_contiguous_match =
            (if s.parser.is_ordinal then MatchKind.Ordinal else MatchKind.Cardinal) := by
        by_cases hvt : value < threshold
        · have hno : ¬(digits.length = 1 ∨ s.parser.is_ordinal = true) := by
            intro hor
            refine hfii ?_
            rw [Bool.and_eq_true, Bool.or_eq_true, beq_iff_eq, decide_eq_true_eq]
            exact ⟨hor, hvt⟩
          push_neg at hno
          refine Or.inl ⟨by omega, ?_⟩
          cases hord : s.parser.is_ordinal
          · rfl
          · exact absurd hord hno.2
        · exact Or.inr (Or.inl (not_lt.mp hvt))
      refine ⟨?_, ?_, ?_⟩
      · simp only
        constructor
        · intro _
          exact hk
        · intro _ heq
          have hlen := congrArg List.length heq
          simp at hlen
      · intro _
        exact ⟨Or.inr rfl, rfl⟩
      · intro hnk
        exact absurd hk hnk

/-- C5: the strict parser `text2digits` lowercases and whitespace-splits its
input, and returns the formatted digit text of the group parse, or the first
non-`Incomplete` error raised while applying the words in order, or the
`Incomplete` error when the last applied word left the number incomplete —
so a trailing connector makes the whole parse fail. -/
theorem text2digits_first_error (lang : Lang) (text : String) :
    text2digits lang text =
      (match exec_group_spec lang (split_whitespace text.toLower) with
       | .ok ds => .ok (lang.format_and_value ds).1
       | .error err => .error err) := by
  unfold text2digits
  rw [exec_group_eq_spec]

/-- Witness for `scanner_keep_rule` at a parser holding "12" (kept: its text
is longer than one character and it is a cardinal). -/
theorem scanner_keep_rule_witness :
    ((c1_scanner_state.parser.string_and_value mini_lang).1 = ("12", (0 : ℚ))) ∧
    (0 < ("12" : String).length) ∧
    (((c1_scanner_state.number_end mini_lang 10).tracker.«matches» ≠
        c1_scanner_state.tracker.«matches») ↔
      ((1 < ("12" : String).length ∧ c1_scanner_state.parser.is_ordinal = false) ∨
        (10 : ℚ) ≤ 0 ∨
        c1_scanner_state.tracker.last_contiguous_match =
          (if c1_scanner_state.parser.is_ordinal then MatchKind.Ordinal
           else MatchKind.Cardinal))) :=
  ⟨rfl, by decide,
    (scanner_keep_rule mini_lang 10 c1_scanner_state "12" 0 rfl (by decide)).1⟩

theorem tracker_rel_advanced (tr1 tr2 : NumTracker) (pos : Nat)
    (h : TrackerRel tr1 tr2) :
    TrackerRel (tr1.number_advanced pos) (tr2.number_advanced pos) := by
  obtain ⟨h1, h2, h3, h4, h5⟩ := h
  simp only [NumTracker.number_advanced]
  rw [h2, h3]
  split_ifs with hc
  · exact ⟨h1, rfl, rfl, h4, h5⟩
  · exact ⟨h1, h2, rfl, h4, h5⟩

theorem tracker_rel_end (tr1 tr2 : NumTracker) (o : Bool) (d : String) (v : ℚ)
    (f1 f2 : Bool) (hf : f2 = true → f1 = true) (h : TrackerRel tr1 tr2) :
    TrackerRel (tr1.number_end o d v f1) (tr2.number_end o d v f2) := by
  obtain ⟨h1, h2, h3, h4, h5⟩ := h
  rw [number_end_spec, number_end_spec, h1, h2, h3]
  by_cases hcont : tr2.last_contiguous_match =
      (if o then MatchKind.Ordinal else MatchKind.Cardinal)
  · rw [if_pos hcont, if_pos hcont]
    refine ⟨rfl, rfl, rfl, List.Sublist.append_right h5 _, ?_⟩
    simp only [Option.toList_none, List.append_nil]
    exact List.Sublist.append_right h5 _
  · rw [if_neg hcont, if_neg hcont]
    by_cases hf2p : f2 = true
    · have hf1p := hf hf2p
      rw [if_pos hf1p, if_pos hf2p]
      refine ⟨rfl, rfl, rfl, h4, ?_⟩
      simp only [Option.toList_some]
      exact List.Sublist.append_right h4 _
    · by_cases hf1p : f1 = true
      · rw [if_pos hf1p, if_neg hf2p]
        -- held at the high threshold, kept at the low one
        refine ⟨rfl, rfl, rfl, h4.trans (List.sublist_append_left _ _), ?_⟩
        simp only [Option.toList_some, Option.toList_none, List.append_nil]
        exact List.Sublist.append_right h4 _
      · rw [if_neg hf1p, if_neg hf2p]
        refine ⟨rfl, rfl, rfl, List.Sublist.append_right h4 _, ?_⟩
        simp only [Option.toList_none, List.append_nil]
        exact List.Sublist.append_right h4 _

theorem tracker_rel_breaker (tr1 tr2 : NumTracker) (h : TrackerRel tr1 tr2) :
    TrackerRel tr1.sequence_breaker tr2.sequence_breaker := by
  obtain ⟨h1, h2, h3, h4, h5⟩ := h
  exact ⟨rfl, h2, h3, h4, h5⟩

theorem state_rel_number_end {T : Type} (lang : Lang) (t1 t2 : ℚ) (ht : t2 ≤ t1)
    (s1 s2 : FindNumbers T) (h : StateRel s1 s2) :
    StateRel (s1.number_end lang t1) (s2.number_end lang t2) := by
  obtain ⟨hp, hprev, htr⟩ := h
  rw [find_number_end_eq, find_number_end_eq, hp, hprev]
  refine ⟨rfl, rfl, ?_⟩
  dsimp only
  refine tracker_rel_end _ _ _ _ _ _ _ ?_ htr
  intro hf2
  rw [Bool.and_eq_true] at hf2 ⊢
  refine ⟨hf2.1, ?_⟩
  rw [decide_eq_true_eq] at hf2 ⊢
  exact lt_of_lt_of_le hf2.2 ht

theorem state_rel_outside {T : Type} (lang : Lang) (ops : TokenOps T)
    (s1 s2 : FindNumbers T) (tok : T) (h : StateRel s1 s2) :
    StateRel (s1.outside_number lang ops tok) (s2.outside_number lang ops tok) := by
  obtain ⟨hp, hprev, htr⟩ := h
  simp only [FindNumbers.outside_number]
  split_ifs
  · exact ⟨hp, hprev, htr⟩
  · exact ⟨hp, hprev, tracker_rel_breaker _ _ htr⟩

theorem push_retry_rel {T : Type} (lang : Lang) (ops : TokenOps T) (t1 t2 : ℚ)
    (ht : t2 ≤ t1) (tr1 tr2 : NumTracker) (pv : Option T)
    (htr : TrackerRel tr1 tr2) (pos : Nat) (tok : T) (p' : WordToDigitParser) :
    StateRel
      { (if (FindNumbers.mk p' tr1 pv).parser.has_number then
          (let s3 := FindNumbers.number_end lang t1 ⟨p', tr1, pv⟩
           let r := WordToDigitParser.push lang s3.parser (ops.text_lowercase tok)
           let s4 : FindNumbers T := { s3 with parser := r.2 }
           if r.1.isNone then { s4 with tracker := s4.tracker.number_advanced pos }
           else s4.outside_number lang ops tok)
         else (FindNumbers.mk p' tr1 pv).outside_number lang ops tok) with
        previous := some tok }
      { (if (FindNumbers.mk p' tr2 pv).parser.has_number then
          (let s3 := FindNumbers.number_end lang t2 ⟨p', tr2, pv⟩
           let r := WordToDigitParser.push lang s3.parser (ops.text_lowercase tok)
           let s4 : FindNumbers T := { s3 with parser := r.2 }
           if r.1.isNone then { s4 with tracker := s4.tracker.number_advanced pos }
           else s4.outside_number lang ops tok)
         else (FindNumbers.mk p' tr2 pv).outside_number lang ops tok) with
        previous := some tok } := by
  have hf : (((p'.string_and_value lang).1.1.length == 1 || p'.is_ordinal)
        && decide ((p'.string_and_value lang).1.2 < t2)) = true →
      (((p'.string_and_value lang).1.1.length == 1 || p'.is_ordinal)
        && decide ((p'.string_and_value lang).1.2 < t1)) = true := by
    intro hf2
    rw [Bool.and_eq_true] at hf2 ⊢
    refine ⟨hf2.1, ?_⟩
    rw [decide_eq_true_eq] at hf2 ⊢
    exact lt_of_lt_of_le hf2.2 ht
  have htr' := tracker_rel_end tr1 tr2 p'.is_ordinal
    (p'.string_and_value lang).1.1 (p'.string_and_value lang).1.2 _ _ hf htr
  dsimp only
  by_cases hn : p'.has_number = true
  · rw [if_pos hn, if_pos hn]
    rw [find_number_end_eq, find_number_end_eq]
    dsimp only
    rcases hpr2 : WordToDigitParser.push lang (p'.string_and_value lang).2
      (ops.text_lowercase tok) with ⟨res2, p2⟩
    dsimp only
    cases res2 with
    | none =>
      simp only [Option.isNone_none]
      rw [if_pos trivial, if_pos trivial]
      exact ⟨rfl, rfl, tracker_rel_advanced _ _ pos htr'⟩
    | some e =>
      simp only [Option.isNone_some]
      rw [if_neg Bool.false_ne_true, if_neg Bool.false_ne_true]
      have hout := state_rel_outside lang ops
        ⟨p2, tr1.number_end p'.is_ordinal (p'.string_and_value lang).1.1
          (p'.string_and_value lang).1.2
          (((p'.string_and_value lang).1.1.length == 1 || p'.is_ordinal)
            && decide ((p'.string_and_value lang).1.2 < t1)), pv⟩
        ⟨p2, tr2.number_end p'.is_ordinal (p'.string_and_value lang).1.1
          (p'.string_and_value lang).1.2
          (((p'.string_and_value lang).1.1.length == 1 || p'.is_ordinal)
            && decide ((p'.string_and_value lang).1.2 < t2)), pv⟩
        tok ⟨rfl, rfl, htr'⟩
      exact ⟨hout.1, rfl, hout.2.2⟩
  · rw [if_neg hn, if_neg hn]
    have hout := state_rel_outside lang ops ⟨p', tr1, pv⟩ ⟨p', tr2, pv⟩ tok
      ⟨rfl, rfl, htr⟩
    exact ⟨hout.1, rfl, hout.2.2⟩

theorem state_rel_push {T : Type} (lang : Lang) (ops : TokenOps T) (t1 t2 : ℚ)
    (ht : t2 ≤ t1) (s1 s2 : FindNumbers T) (h : StateRel s1 s2) (pos : Nat)
    (tok : T) :
    StateRel (s1.push lang ops t1 pos tok) (s2.push lang ops t2 pos tok) := by
  obtain ⟨p1, tr1, pv1⟩ := s1
  obtain ⟨p2, tr2, pv2⟩ := s2
  obtain ⟨hp, hprev, htr⟩ := h
  dsimp only at hp hprev htr
  subst hp
  subst hprev
  unfold FindNumbers.push
  dsimp only
  by_cases hws : (ops.text tok = "-" || is_whitespace (ops.text tok)) = true
  · rw [if_pos hws, if_pos hws]
    exact ⟨rfl, rfl, htr⟩
  · rw [if_neg hws, if_neg hws]
    by_cases hnan : ops.not_a_number_part tok = true
    · rw [if_pos hnan, if_pos hnan]
      have hrel1 : StateRel
          (if (⟨p1, tr1, pv1⟩ : FindNumbers T).parser.has_number then
            FindNumbers.number_end lang t1 ⟨p1, tr1, pv1⟩ else ⟨p1, tr1, pv1⟩)
          (if (⟨p1, tr2, pv1⟩ : FindNumbers T).parser.has_number then
            FindNumbers.number_end lang t2 ⟨p1, tr2, pv1⟩ else ⟨p1, tr2, pv1⟩) := by
        split_ifs
        · exact state_rel_number_end lang t1 t2 ht _ _ ⟨rfl, rfl, htr⟩
        · exact ⟨rfl, rfl, htr⟩
      have hrel2 := state_rel_outside lang ops _ _ tok hrel1
      exact ⟨hrel2.1, rfl, hrel2.2.2⟩
    · rw [if_neg hnan, if_neg hnan]
      cases pv1 with
      | none =>
        rcases hpr : WordToDigitParser.push lang p1 (ops.text_lowercase tok)
          with ⟨res, p'⟩
        dsimp only
        cases res with
        | none => exact ⟨rfl, rfl, tracker_rel_advanced _ _ pos htr⟩
        | some e =>
          cases e with
          | Incomplete => exact ⟨rfl, rfl, htr⟩
          | Overlap =>
            exact push_retry_rel lang ops t1 t2 ht tr1 tr2 none htr pos tok p'
          | NaN =>
            exact push_retry_rel lang ops t1 t2 ht tr1 tr2 none htr pos tok p'
          | Frozen =>
            exact push_retry_rel lang ops t1 t2 ht tr1 tr2 none htr pos tok p'
      | some prev =>
        rcases hpr : WordToDigitParser.push lang p1
          (if p1.has_number && ops.nt_separated tok prev then ","
            else ops.text_lowercase tok) with ⟨res, p'⟩
        dsimp only
        cases res with
        | none => exact ⟨rfl, rfl, tracker_rel_advanced _ _ pos htr⟩
        | some e =>
          cases e with
          | Incomplete => exact ⟨rfl, rfl, htr⟩
          | Overlap =>
            exact push_retry_rel lang ops t1 t2 ht tr1 tr2 (some prev) htr pos tok p'
          | NaN =>
            exact push_retry_rel lang ops t1 t2 ht tr1 tr2 (some prev) htr pos tok p'
          | Frozen =>
            exact push_retry_rel lang ops t1 t2 ht tr1 tr2 (some prev) htr pos tok p'

theorem track_loop_rel {T : Type} (lang : Lang) (ops : TokenOps T) (t1 t2 : ℚ)
    (ht : t2 ≤ t1) (tokens : List T) :
    ∀ (i : Nat) (s1 s2 : FindNumbers T), StateRel s1 s2 →
      StateRel (track_loop lang ops t1 s1 i tokens)
        (track_loop lang ops t2 s2 i tokens) := by
  induction tokens with
  | nil => intro i s1 s2 h; exact h
  | cons tok rest ih =>
    intro i s1 s2 h
    exact ih (i + 1) _ _ (state_rel_push lang ops t1 t2 ht s1 s2 h i tok)

theorem state_rel_finalize {T : Type} (lang : Lang) (t1 t2 : ℚ) (ht : t2 ≤ t1)
    (s1 s2 : FindNumbers T) (h : StateRel s1 s2) :
    StateRel (s1.finalize lang t1) (s2.finalize lang t2) := by
  obtain ⟨hp, hprev, htr⟩ := h
  unfold FindNumbers.finalize
  rw [hp]
  split_ifs
  · exact state_rel_number_end lang t1 t2 ht _ _ ⟨hp, hprev, htr⟩
  · exact ⟨hp, hprev, htr⟩

/-- C6: threshold monotonicity of the scanner. Every occurrence kept by
`find_numbers` at threshold `t1` is also kept, unchanged (same start, end,
text, value and kind), at every threshold `t2 ≤ t1`: lowering the threshold
never removes a conversion. -/
theorem find_numbers_threshold_mono {T : Type} (lang : Lang) (ops : TokenOps T)
    (t1 t2 : ℚ) (ht : t2 ≤ t1) (tokens : List T) (occ : Occurence)
    (hocc : occ ∈ find_numbers lang ops t1 tokens) :
    occ ∈ find_numbers lang ops t2 tokens := by
  have hrel : StateRel
      ((track_loop lang ops t1 FindNumbers.new 0 tokens).finalize lang t1)
      ((track_loop lang ops t2 FindNumbers.new 0 tokens).finalize lang t2) :=
    state_rel_finalize lang t1 t2 ht _ _
      (track_loop_rel lang ops t1 t2 ht tokens 0 _ _
        ⟨rfl, rfl, rfl, rfl, rfl, List.Sublist.refl _, List.Sublist.refl _⟩)
  exact hrel.2.2.2.2.2.1.subset hocc

/-- Witness for `find_numbers_threshold_mono`: the two-digit number "12"
spelled as "1" "2" is found at threshold 10 and also at threshold 0. -/
theorem find_numbers_threshold_mono_witness :
    (0 : ℚ) ≤ 10 ∧
    (⟨0, 1, "1", 0, false⟩ : Occurence) ∈
      find_numbers mini_lang str_ops 10 ["1", "2"] ∧
    (⟨0, 1, "1", 0, false⟩ : Occurence) ∈
      find_numbers mini_lang str_ops 0 ["1", "2"] :=
  ⟨by norm_num, by decide,
    find_numbers_threshold_mono mini_lang str_ops 10 0 (by norm_num) ["1", "2"]
      ⟨0, 1, "1", 0, false⟩ (by decide)⟩

theorem chain_snoc (L : List Occurence) (occ : Occurence)
    (hch : List.Chain' (fun a b => a.«end» ≤ b.start) L)
    (hlast : ∀ o ∈ L, o.«end» ≤ occ.start) :
    List.Chain' (fun a b => a.«end» ≤ b.start) (L ++ [occ]) := by
  rw [List.chain'_append]
  refine ⟨hch, List.chain'_singleton _, ?_⟩
  intro x hx y hy
  simp only [List.head?_cons, Option.mem_def, Option.some_inj] at hy
  subst hy
  exact hlast x (List.mem_of_mem_getLast? hx)

theorem reset_has_no_number (p : WordToDigitParser) :
    (p.reset).has_number = false := rfl

theorem push_no_number (lang : Lang)
    (H : ∀ w ds, ds.is_empty = true → ((lang.apply w ds).1).isSome = true →
      ((lang.apply w ds).2).is_empty = true)
    (p : WordToDigitParser) (w : String) (hp : p.has_number = false)
    (hs : ((WordToDigitParser.push lang p w).1).isSome = true) :
    ((WordToDigitParser.push lang p w).2).has_number = false := by
  have hemp : p.int_part.is_empty = true := by
    unfold WordToDigitParser.has_number at hp
    cases h : p.int_part.is_empty
    · rw [h] at hp; cases hp
    · rfl
  revert hs
  unfold WordToDigitParser.push
  cases hsep : p.dec_separator with
  | some c =>
    rcases had : lang.apply_decimal w p.dec_part with ⟨st, d⟩
    dsimp only
    intro _
    unfold WordToDigitParser.has_number
    split_ifs <;> simp [hemp]
  | none =>
    rcases hap : lang.apply w p.int_part with ⟨st, i'⟩
    have hi' : st.isSome = true → i'.is_empty = true := by
      intro hst
      have hHap := H w p.int_part hemp (by rw [hap]; exact hst)
      rwa [hap] at hHap
    dsimp only
    intro hs
    cases st with
    | none =>
      -- the final status would be `none`, contradicting `hs`
      exfalso
      simp at hs
    | some e =>
      have hie := hi' rfl
      unfold WordToDigitParser.has_number
      split_ifs <;> simp [hie]

theorem inv_mono {T : Type} (s : FindNumbers T) (i j : Nat) (hij : i ≤ j)
    (h : ScanInv s i) : ScanInv s j :=
  ⟨h.1, le_trans h.2.1 hij, h.2.2.1, h.2.2.2.1, h.2.2.2.2.1, h.2.2.2.2.2⟩

theorem inv_advanced {T : Type} (p : WordToDigitParser) (tr : NumTracker)
    (pv : Option T) (i : Nat) (hinv : ScanInv (⟨p, tr, pv⟩ : FindNumbers T) i)
    (p' : WordToDigitParser) (pv' : Option T) :
    ScanInv (⟨p', tr.number_advanced i, pv'⟩ : FindNumbers T) (i + 1) := by
  obtain ⟨h1, h2, h3, h4, h5, h6⟩ := hinv
  dsimp only at h1 h2 h3 h4 h5 h6 ⊢
  simp only [NumTracker.number_advanced]
  split_ifs with hc
  · unfold ScanInv
    dsimp only
    refine ⟨by omega, by omega, fun _ => by omega, h4, h5, ?_⟩
    intro o ho
    have hoe := h6 o ho
    omega
  · unfold ScanInv
    dsimp only
    refine ⟨by omega, by omega, fun _ => by omega, h4, h5, ?_⟩
    intro o ho
    have hoe := h6 o ho
    omega

theorem inv_outside {T : Type} (lang : Lang) (ops : TokenOps T)
    (s : FindNumbers T) (tok : T) (i : Nat) (hinv : ScanInv s i) :
    ScanInv (s.outside_number lang ops tok) i := by
  simp only [FindNumbers.outside_number]
  split_ifs
  · exact hinv
  · exact hinv

theorem sv_has_no_number (lang : Lang) (p : WordToDigitParser) :
    ((p.string_and_value lang).2).has_number = false := rfl

theorem inv_number_end {T : Type} (lang : Lang) (threshold : ℚ)
    (s : FindNumbers T) (i : Nat) (hinv : ScanInv s i)
    (hn : s.parser.has_number = true) :
    ScanInv (s.number_end lang threshold) i ∧
      (s.number_end lang threshold).parser.has_number = false := by
  obtain ⟨h1, h2, h3, h4, h5, h6⟩ := hinv
  have hms := h3 hn
  rw [find_number_end_eq]
  refine ⟨?_, rfl⟩
  dsimp only
  rw [number_end_spec]
  have hchm : List.Chain' (fun a b => a.«end» ≤ b.start) s.tracker.«matches» :=
    (List.chain'_append.mp h5).1
  by_cases hcont : s.tracker.last_contiguous_match =
      (if s.parser.is_ordinal then MatchKind.Ordinal else MatchKind.Cardinal)
  · -- contiguous: matches, on-hold and the candidate are all emitted
    rw [if_pos hcont]
    unfold ScanInv
    dsimp only
    refine ⟨le_refl _, h2, ?_, ?_, ?_, ?_⟩
    · intro hfalse
      exact Bool.noConfusion ((sv_has_no_number lang s.parser).symm.trans hfalse)
    · intro o ho
      simp only [Option.toList_none, List.append_nil, List.mem_append,
        List.mem_singleton] at ho
      rcases ho with ((ho | ho) | rfl)
      · exact h4 o (List.mem_append_left _ ho)
      · exact h4 o (List.mem_append_right _ ho)
      · exact hms
    · simp only [Option.toList_none, List.append_nil]
      exact chain_snoc _ _ h5 h6
    · intro o ho
      simp only [Option.toList_none, List.append_nil, List.mem_append,
        List.mem_singleton] at ho
      rcases ho with ((ho | ho) | rfl)
      · exact le_trans (h6 o (List.mem_append_left _ ho)) h1
      · exact le_trans (h6 o (List.mem_append_right _ ho)) h1
      · exact le_refl _
  · rw [if_neg hcont]
    by_cases hfii : (((s.parser.string_and_value lang).1.1.length == 1 ||
        s.parser.is_ordinal) &&
        decide ((s.parser.string_and_value lang).1.2 < threshold)) = true
    · -- lone: the candidate replaces the held one
      rw [if_pos hfii]
      unfold ScanInv
      dsimp only
      refine ⟨le_refl _, h2, ?_, ?_, ?_, ?_⟩
      · intro hfalse
        exact Bool.noConfusion ((sv_has_no_number lang s.parser).symm.trans hfalse)
      · intro o ho
        simp only [Option.toList_some, List.mem_append, List.mem_singleton] at ho
        rcases ho with (ho | rfl)
        · exact h4 o (List.mem_append_left _ ho)
        · exact hms
      · simp only [Option.toList_some]
        refine chain_snoc _ _ hchm ?_
        intro o ho
        exact h6 o (List.mem_append_left _ ho)
      · intro o ho
        simp only [Option.toList_some, List.mem_append, List.mem_singleton] at ho
        rcases ho with (ho | rfl)
        · exact le_trans (h6 o (List.mem_append_left _ ho)) h1
        · exact le_refl _
    · -- kept outright: the held candidate (if any) is dropped
      rw [if_neg hfii]
      unfold ScanInv
      dsimp only
      refine ⟨le_refl _, h2, ?_, ?_, ?_, ?_⟩
      · intro hfalse
        exact Bool.noConfusion ((sv_has_no_number lang s.parser).symm.trans hfalse)
      · intro o ho
        simp only [Option.toList_none, List.append_nil, List.mem_append,
          List.mem_singleton] at ho
        rcases ho with (ho | rfl)
        · exact h4 o (List.mem_append_left _ ho)
        · exact hms
      · simp only [Option.toList_none, List.append_nil]
        refine chain_snoc _ _ hchm ?_
        intro o ho
        exact h6 o (List.mem_append_left _ ho)
      · intro o ho
        simp only [Option.toList_none, List.append_nil, List.mem_append,
          List.mem_singleton] at ho
        rcases ho with (ho | rfl)
        · exact le_trans (h6 o (List.mem_append_left _ ho)) h1
        · exact le_refl _

theorem inv_push_retry {T : Type} (lang : Lang) (ops : TokenOps T) (threshold : ℚ)
    (H : ∀ w ds, ds.is_empty = true → ((lang.apply w ds).1).isSome = true →
      ((lang.apply w ds).2).is_empty = true)
    (tr : NumTracker) (pv : Option T) (i : Nat) (tok : T)
    (p' : WordToDigitParser) (hinv : ScanInv (⟨p', tr, pv⟩ : FindNumbers T) i) :
    ScanInv
      { (if (FindNumbers.mk p' tr pv).parser.has_number then
          (let s3 := FindNumbers.number_end lang threshold ⟨p', tr, pv⟩
           let r := WordToDigitParser.push lang s3.parser (ops.text_lowercase tok)
           let s4 : FindNumbers T := { s3 with parser := r.2 }
           if r.1.isNone then { s4 with tracker := s4.tracker.number_advanced i }
           else s4.outside_number lang ops tok)
         else (FindNumbers.mk p' tr pv).outside_number lang ops tok) with
        previous := some tok } (i + 1) := by
  dsimp only
  by_cases hn : p'.has_number = true
  · rw [if_pos hn]
    have hend := (inv_number_end lang threshold ⟨p', tr, pv⟩ i hinv hn).1
    rw [find_number_end_eq]
    rw [find_number_end_eq] at hend
    dsimp only at hend ⊢
    rcases hpr2 : WordToDigitParser.push lang (p'.string_and_value lang).2
      (ops.text_lowercase tok) with ⟨res2, p2⟩
    cases res2 with
    | none =>
      simp only [Option.isNone_none]
      rw [if_pos trivial]
      exact inv_advanced _ _ pv i hend p2 (some tok)
    | some e =>
      simp only [Option.isNone_some]
      rw [if_neg Bool.false_ne_true]
      obtain ⟨g1, g2, g3, g4, g5, g6⟩ := hend
      have hp2 : p2.has_number = false := by
        have hres := push_no_number lang H ((p'.string_and_value lang).2)
          (ops.text_lowercase tok) (sv_has_no_number lang p') (by rw [hpr2]; rfl)
        rwa [hpr2] at hres
      refine inv_mono _ _ _ (by omega)
        (inv_outside lang ops _ tok i ⟨g1, g2, ?_, g4, g5, g6⟩)
      intro hcontr
      exact Bool.noConfusion (hp2.symm.trans hcontr)
  · rw [if_neg hn]
    exact inv_mono _ _ _ (by omega) (inv_outside lang ops _ tok i hinv)

theorem inv_push {T : Type} (lang : Lang) (ops : TokenOps T) (threshold : ℚ)
    (H : ∀ w ds, ds.is_empty = true → ((lang.apply w ds).1).isSome = true →
      ((lang.apply w ds).2).is_empty = true)
    (p : WordToDigitParser) (tr : NumTracker) (pv : Option T) (i : Nat) (tok : T)
    (hinv : ScanInv (⟨p, tr, pv⟩ : FindNumbers T) i) :
    ScanInv (FindNumbers.push lang ops threshold ⟨p, tr, pv⟩ i tok) (i + 1) := by
  have hafter : ∀ (w : String) (res : Option Error) (p' : WordToDigitParser),
      WordToDigitParser.push lang p w = (res, p') → res.isSome = true →
      ScanInv (⟨p', tr, pv⟩ : FindNumbers T) i := by
    intro w res p' hpr hsome
    obtain ⟨h1, h2, h3, h4, h5, h6⟩ := hinv
    refine ⟨h1, h2, ?_, h4, h5, h6⟩
    intro hn'
    by_cases hpn : p.has_number = true
    · exact h3 hpn
    · exfalso
      have hpn' : p.has_number = false := by
        cases hx : p.has_number
        · rfl
        · exact absurd hx hpn
      have hres := push_no_number lang H p w hpn' (by rw [hpr]; exact hsome)
      rw [hpr] at hres
      exact Bool.noConfusion (hres.symm.trans hn')
  unfold FindNumbers.push
  dsimp only
  by_cases hws : (ops.text tok = "-" || is_whitespace (ops.text tok)) = true
  · rw [if_pos hws]
    exact inv_mono _ _ _ (by omega) hinv
  · rw [if_neg hws]
    by_cases hnan : ops.not_a_number_part tok = true
    · rw [if_pos hnan]
      have hinv1 : ScanInv
          (if (⟨p, tr, pv⟩ : FindNumbers T).parser.has_number then
            FindNumbers.number_end lang threshold ⟨p, tr, pv⟩
          else ⟨p, tr, pv⟩) i := by
        split_ifs with hhn
        · exact (inv_number_end lang threshold _ i hinv hhn).1
        · exact hinv
      exact inv_mono _ _ _ (by omega) (inv_outside lang ops _ tok i hinv1)
    · rw [if_neg hnan]
      cases pv with
      | none =>
        rcases hpr : WordToDigitParser.push lang p (ops.text_lowercase tok)
          with ⟨res, p'⟩
        dsimp only
        cases res with
        | none => exact inv_advanced p tr none i hinv p' (some tok)
        | some e =>
          cases e with
          | Incomplete =>
            exact inv_mono _ _ _ (by omega) (hafter _ _ _ hpr rfl)
          | Overlap =>
            exact inv_push_retry lang ops threshold H tr none i tok p'
              (hafter _ _ _ hpr rfl)
          | NaN =>
            exact inv_push_retry lang ops threshold H tr none i tok p'
              (hafter _ _ _ hpr rfl)
          | Frozen =>
            exact inv_push_retry lang ops threshold H tr none i tok p'
              (hafter _ _ _ hpr rfl)
      | some prev =>
        rcases hpr : WordToDigitParser.push lang p
          (if p.has_number && ops.nt_separated tok prev then ","
            else ops.text_lowercase tok) with ⟨res, p'⟩
        dsimp only
        cases res with
        | none => exact inv_advanced p tr (some prev) i hinv p' (some tok)
        | some e =>
          cases e with
          | Incomplete =>
            exact inv_mono _ _ _ (by omega) (hafter _ _ _ hpr rfl)
          | Overlap =>
            exact inv_push_retry lang ops threshold H tr (some prev) i tok p'
              (hafter _ _ _ hpr rfl)
          | NaN =>
            exact inv_push_retry lang ops threshold H tr (some prev) i tok p'
              (hafter _ _ _ hpr rfl)
          | Frozen =>
            exact inv_push_retry lang ops threshold H tr (some prev) i tok p'
              (hafter _ _ _ hpr rfl)

theorem inv_track_loop {T : Type} (lang : Lang) (ops : TokenOps T)
    (threshold : ℚ)
    (H : ∀ w ds, ds.is_empty = true → ((lang.apply w ds).1).isSome = true →
      ((lang.apply w ds).2).is_empty = true)
    (tokens : List T) :
    ∀ (i : Nat) (s : FindNumbers T), ScanInv s i →
      ScanInv (track_loop lang ops threshold s i tokens) (i + tokens.length) := by
  induction tokens with
  | nil => intro i s h; exact h
  | cons tok rest ih =>
    intro i s h
    obtain ⟨p, tr, pv⟩ := s
    have h1 := inv_push lang ops threshold H p tr pv i tok h
    have h2 := ih (i + 1) _ h1
    refine inv_mono _ _ _ ?_ h2
    simp [List.length_cons]
    omega

theorem inv_finalize {T : Type} (lang : Lang) (threshold : ℚ)
    (s : FindNumbers T) (i : Nat) (hinv : ScanInv s i) :
    ScanInv (s.finalize lang threshold) i := by
  unfold FindNumbers.finalize
  split_ifs with hn
  · exact (inv_number_end lang threshold s i hinv hn).1
  · exact hinv

/-- C10: `find_numbers` yields strictly ordered, non-overlapping
occurrences: every emitted occurrence spans at least one token
(`start < end`) and consecutive occurrences satisfy `end ≤ start` of the
next. The hypothesis `H` is the interpreter contract the scanner relies on:
a failing `apply` on an empty buffer does not create a number. -/
theorem find_numbers_ordered {T : Type} (lang : Lang) (ops : TokenOps T)
    (threshold : ℚ) (tokens : List T)
    (H : ∀ w ds, ds.is_empty = true → ((lang.apply w ds).1).isSome = true →
      ((lang.apply w ds).2).is_empty = true) :
    (∀ o ∈ find_numbers lang ops threshold tokens, o.start < o.«end») ∧
    List.Chain' (fun a b => a.«end» ≤ b.start)
      (find_numbers lang ops threshold tokens) := by
  have hinv0 : ScanInv (FindNumbers.new : FindNumbers T) 0 := by
    refine ⟨Nat.le_refl _, Nat.le_refl _, fun h => Bool.noConfusion h, ?_, ?_, ?_⟩
      <;> simp [FindNumbers.new, NumTracker.new]
  have hfin := inv_finalize lang threshold _ (0 + tokens.length)
    (inv_track_loop lang ops threshold H tokens 0 FindNumbers.new hinv0)
  obtain ⟨g1, g2, g3, g4, g5, g6⟩ := hfin
  constructor
  · intro o ho
    exact g4 o (List.mem_append_left _ ho)
  · exact (List.chain'_append.mp g5).1

theorem put_error_keeps (ds : DigitString) (d : List Char) :
    ((ds.put d).1).isSome = true → (ds.put d).2 = ds := by
  simp only [DigitString.put]
  split_ifs <;> intro h <;> first | rfl | simp at h

theorem mini_lang_apply_safe : ∀ (w : String) (ds : DigitString),
    ds.is_empty = true → ((mini_lang.apply w ds).1).isSome = true →
    ((mini_lang.apply w ds).2).is_empty = true := by
  intro w ds hemp hsome
  dsimp only [mini_lang] at hsome ⊢
  split_ifs at hsome ⊢ with h1 h2
  · rw [put_error_keeps ds w.data hsome]
    exact hemp
  · exact hemp
  · exact hemp

/-- Witness for `find_numbers_ordered` at a concrete interpreter and
stream. -/
theorem find_numbers_ordered_witness :
    (∀ (w : String) (ds : DigitString), ds.is_empty = true →
      ((mini_lang.apply w ds).1).isSome = true →
      ((mini_lang.apply w ds).2).is_empty = true) ∧
    (∀ o ∈ find_numbers mini_lang str_ops 10 ["1", "2"], o.start < o.«end») ∧
    List.Chain' (fun a b => a.«end» ≤ b.start)
      (find_numbers mini_lang str_ops 10 ["1", "2"]) :=
  ⟨mini_lang_apply_safe,
    find_numbers_ordered mini_lang str_ops 10 ["1", "2"] mini_lang_apply_safe⟩

end Text2num
